import Mathlib

/-!
Verification of the podcast-summarizer backend (`Backend/app.py`,
`Backend/diarization.py`, `Backend/summarization.py`).

The development shallowly embeds:

* the segment-consolidation algorithm of `SpeakerDiarization`
  (`_process_diarization_results`, `_enforce_two_speakers`,
  `_process_in_chunks`) over exact rationals,
* the job orchestrator `process_audio_file` of `app.py` as a pure function
  of an environment describing the behaviour of every external collaborator
  (metadata extraction, transcriber, diarizer, topic detector, summarizers,
  JSON serialization), and
* the result shapes of `ExtractiveSummarizer.summarize` and
  `AbstractiveSummarizer.summarize`.

Python floats are modelled as rationals; `round(x, 2)` is modelled as
rounding `100 * x` to the nearest integer (tie behaviour is irrelevant to
every property proved here).
-/

namespace PodcastBackend

/-- Python `round(x, 2)`: round to two decimal places. -/
def round2 (x : ℚ) : ℚ := ((round (100 * x) : ℤ) : ℚ) / 100

/-- A diarization segment dict `{start, end, speaker, duration}` as built by
`SpeakerDiarization._process_diarization_results`.  The `confidence` key,
which is added after merging and never read by any of the merge /
enforcement / chunking code, is modelled separately by `confidenceScore`. -/
structure DSeg where
  start : ℚ
  end_ : ℚ
  speaker : String
  duration : ℚ
deriving DecidableEq, Repr

/-- `self.collar = 0.15` (diarization.py line 60). -/
def collar : ℚ := 15 / 100

/-- The merge condition of the single left-to-right sweep
(diarization.py lines 280-281 and 481-482): same speaker and the gap
between the end of the current segment and the start of the next is at
most the collar. -/
def canMergeB (cur next : DSeg) : Bool :=
  decide (next.speaker = cur.speaker) && decide (next.start - cur.end_ ≤ collar)

/-- Merging a following segment into the current one (diarization.py lines
283-284 and 484-485): the end time is extended and the duration recomputed
and rounded; start and speaker are kept. -/
def mergeInto (cur next : DSeg) : DSeg :=
  { cur with end_ := next.end_, duration := round2 (next.end_ - cur.start) }

/-- The left-to-right merge sweep (diarization.py lines 276-291), carrying
the current segment. -/
def mergeScan : DSeg → List DSeg → List DSeg
  | cur, [] => [cur]
  | cur, next :: rest =>
    if canMergeB cur next then mergeScan (mergeInto cur next) rest
    else cur :: mergeScan next rest

/-- The merge sweep on a whole (already sorted) list. -/
def mergeRun : List DSeg → List DSeg
  | [] => []
  | x :: xs => mergeScan x xs

/-- The comparison used by `sorted(segments, key=lambda s: s["start"])`. -/
def startLE (a b : DSeg) : Bool := decide (a.start ≤ b.start)

/-- Python's stable `sorted(..., key=lambda s: s["start"])`. -/
def sortByStart (l : List DSeg) : List DSeg := l.mergeSort startLE

/-- The complete merge pass of `_process_diarization_results`
(diarization.py lines 268-291): sort by start time, then one merge sweep. -/
def mergePass (l : List DSeg) : List DSeg := mergeRun (sortByStart l)

/-- The confidence score assigned to a consolidated segment
(diarization.py lines 293-298): `round(min(0.9, max(0.6, duration / 10)) +
jitter, 2)` where the jitter is drawn from `np.random.uniform(-0.1, 0.1)`.
The random draw is a parameter here. -/
def confidenceScore (duration jitter : ℚ) : ℚ :=
  round2 (min (9 / 10) (max (6 / 10) (duration / 10)) + jitter)

/-! ### Basic properties of the merge sweep -/

theorem mergeScan_ne_nil (cur : DSeg) (l : List DSeg) : mergeScan cur l ≠ [] := by
  induction l generalizing cur with
  | nil => simp [mergeScan]
  | cons n rest ih =>
    simp only [mergeScan]
    by_cases h : canMergeB cur n
    · simpa [h] using ih (mergeInto cur n)
    · simp [h]

/-- The head of a merge sweep keeps the start time and speaker of the
segment the sweep was started with. -/
theorem mergeScan_head (cur : DSeg) (l : List DSeg) :
    ∃ e d t, mergeScan cur l = DSeg.mk cur.start e cur.speaker d :: t := by
  induction l generalizing cur with
  | nil => exact ⟨cur.end_, cur.duration, [], rfl⟩
  | cons n rest ih =>
    simp only [mergeScan]
    by_cases h : canMergeB cur n
    · obtain ⟨e, d, t, ht⟩ := ih (mergeInto cur n)
      exact ⟨e, d, t, by simpa [h, mergeInto] using ht⟩
    · exact ⟨cur.end_, cur.duration, mergeScan n rest, by simp [h]⟩

/-- Whether `cur` can absorb a segment only depends on the start and the
speaker of that segment, both of which `mergeInto` preserves. -/
theorem canMergeB_mergeInto_right (x n r : DSeg) :
    canMergeB x (mergeInto n r) = canMergeB x n := by
  simp [canMergeB, mergeInto]

/-- Splitting a merge sweep over an append: the sweep over `l1 ++ l2` is the
sweep over `l1` whose last segment goes on to sweep `l2`. -/
theorem mergeScan_append (l1 : List DSeg) (cur : DSeg) (l2 : List DSeg) :
    mergeScan cur (l1 ++ l2) =
      (mergeScan cur l1).dropLast ++
        mergeScan ((mergeScan cur l1).getLast (mergeScan_ne_nil cur l1)) l2 := by
  induction l1 generalizing cur with
  | nil => simp [mergeScan]
  | cons n rest ih =>
    by_cases h : canMergeB cur n
    · simp only [List.cons_append, mergeScan, h, if_true]
      exact ih (mergeInto cur n)
    · simp only [List.cons_append, mergeScan, h, if_false, Bool.false_eq_true]
      have hr : rest.append l2 = rest ++ l2 := rfl
      rw [hr, ih n]
      have hne := mergeScan_ne_nil n rest
      rw [List.dropLast_cons_of_ne_nil hne, List.getLast_cons hne]
      simp

/-- Re-sweeping an already swept list behaves like sweeping the original
list: the sweep is insensitive to pre-merging of its input. -/
theorem mergeScan_mergeRun :
    ∀ (n : ℕ) (l : List DSeg), l.length ≤ n →
      ∀ x, mergeScan x (mergeRun l) = mergeScan x l := by
  intro n
  induction n with
  | zero =>
    intro l hl x
    have : l = [] := List.length_eq_zero.mp (Nat.le_zero.mp hl)
    subst this
    simp [mergeRun]
  | succ n ih =>
    intro l hl x
    match l with
    | [] => simp [mergeRun]
    | [a] => simp [mergeRun, mergeScan]
    | a :: b :: rest =>
      simp only [mergeRun]
      by_cases hab : canMergeB a b
      · simp only [mergeScan, hab, if_true]
        have hlen : (mergeInto a b :: rest).length ≤ n := by
          simpa using Nat.le_of_succ_le_succ (by simpa using hl)
        have h1 : mergeScan x (mergeScan (mergeInto a b) rest) =
            mergeScan x (mergeInto a b :: rest) := by
          simpa [mergeRun] using ih (mergeInto a b :: rest) hlen x
        rw [h1]
        simp only [mergeScan, canMergeB_mergeInto_right]
        by_cases hxa : canMergeB x a
        · simp only [hxa, if_true]
          have hx2 : canMergeB (mergeInto x a) b = true := by
            have h1 := (Bool.and_eq_true _ _).mp hab
            have h2 := (Bool.and_eq_true _ _).mp hxa
            simp only [decide_eq_true_eq] at h1 h2
            simp [canMergeB, mergeInto, h1.1, h2.1, h1.2]
          have hx3 : canMergeB x (mergeInto a b) = canMergeB x a :=
            canMergeB_mergeInto_right x a b
          simp only [mergeScan, hx2, if_true, hxa, hx3]
          have : mergeInto x (mergeInto a b) = mergeInto (mergeInto x a) b := by
            simp [mergeInto]
          rw [this]
        · simp only [hxa, if_false, Bool.false_eq_true, mergeScan, hab, if_true]
      · simp only [mergeScan, hab, if_false, Bool.false_eq_true]
        have hlen : (b :: rest).length ≤ n := by
          simpa using Nat.le_of_succ_le_succ (by simpa using hl)
        by_cases hxa : canMergeB x a
        · simp only [mergeScan, hxa, if_true]
          have h1 : mergeScan (mergeInto x a) (mergeScan b rest) =
              mergeScan (mergeInto x a) (b :: rest) := by
            simpa [mergeRun] using ih (b :: rest) hlen (mergeInto x a)
          rw [h1]
          simp [mergeScan]
        · simp only [mergeScan, hxa, if_false, Bool.false_eq_true]
          have h1 : mergeScan a (mergeScan b rest) = mergeScan a (b :: rest) := by
            simpa [mergeRun] using ih (b :: rest) hlen a
          rw [h1]
          simp [mergeScan, hab]

/-- `mergeScan x l` only depends on `l` through `mergeRun l`. -/
theorem mergeScan_congr (x : DSeg) (A B : List DSeg) (h : mergeRun A = mergeRun B) :
    mergeScan x A = mergeScan x B := by
  have hA := mergeScan_mergeRun A.length A le_rfl x
  have hB := mergeScan_mergeRun B.length B le_rfl x
  rw [← hA, ← hB, h]

/-- The merge sweep is idempotent at the `mergeScan` level. -/
theorem mergeRun_mergeScan :
    ∀ (n : ℕ) (l : List DSeg), l.length ≤ n →
      ∀ x, mergeRun (mergeScan x l) = mergeScan x l := by
  intro n
  induction n with
  | zero =>
    intro l hl x
    have : l = [] := List.length_eq_zero.mp (Nat.le_zero.mp hl)
    subst this
    simp [mergeRun, mergeScan]
  | succ n ih =>
    intro l hl x
    match l with
    | [] => simp [mergeRun, mergeScan]
    | b :: rest =>
      simp only [mergeScan]
      by_cases hxb : canMergeB x b
      · simp only [hxb, if_true]
        exact ih rest (by simpa using Nat.le_of_succ_le_succ hl) (mergeInto x b)
      · simp only [hxb, if_false, Bool.false_eq_true, mergeRun]
        have h1 : mergeScan x (mergeScan b rest) = mergeScan x (b :: rest) := by
          simpa [mergeRun] using
            mergeScan_mergeRun (b :: rest).length (b :: rest) le_rfl x
        rw [h1]
        simp [mergeScan, hxb]

/-- The merge sweep is idempotent. -/
theorem mergeRun_idem (l : List DSeg) : mergeRun (mergeRun l) = mergeRun l := by
  match l with
  | [] => simp [mergeRun]
  | x :: xs =>
    simp only [mergeRun]
    exact mergeRun_mergeScan xs.length xs le_rfl x

theorem getLast_eq_of_eq {α : Type} {X Y : List α} (h : X = Y) (hX : X ≠ [])
    (hY : Y ≠ []) : X.getLast hX = Y.getLast hY := by
  subst h
  rfl

theorem mergeRun_cons (x : DSeg) (xs : List DSeg) : mergeRun (x :: xs) = mergeScan x xs := rfl

/-- Locality of the sweep on the left of an append: pre-merging the left
part does not change the overall sweep. -/
theorem mergeRun_append_left (l1 l2 : List DSeg) :
    mergeRun (mergeRun l1 ++ l2) = mergeRun (l1 ++ l2) := by
  match l1 with
  | [] => simp [mergeRun]
  | h :: t =>
    have hS : mergeRun (mergeScan h t) = mergeScan h t :=
      mergeRun_mergeScan t.length t le_rfl h
    obtain ⟨e, d, tl, htl⟩ := mergeScan_head h t
    have e1 : mergeScan (DSeg.mk h.start e h.speaker d) tl = mergeScan h t := by
      rw [htl] at hS
      rw [mergeRun_cons] at hS
      rw [hS, htl]
    have e2 : (mergeScan (DSeg.mk h.start e h.speaker d) tl).getLast
          (mergeScan_ne_nil _ tl) =
        (mergeScan h t).getLast (mergeScan_ne_nil h t) :=
      getLast_eq_of_eq e1 _ _
    rw [mergeRun_cons, htl, List.cons_append, List.cons_append, mergeRun_cons,
      mergeRun_cons, mergeScan_append tl _ l2, mergeScan_append t h l2, e2, e1]

/-- Locality of the sweep on the right of an append: pre-merging the right
part does not change the overall sweep. -/
theorem mergeRun_append_right (l1 l2 : List DSeg) :
    mergeRun (l1 ++ mergeRun l2) = mergeRun (l1 ++ l2) := by
  match l1 with
  | [] => simpa [mergeRun] using mergeRun_idem l2
  | h :: t =>
    rw [List.cons_append, List.cons_append, mergeRun_cons, mergeRun_cons,
      mergeScan_append t h (mergeRun l2), mergeScan_append t h l2,
      mergeScan_mergeRun l2.length l2 le_rfl]

/-- Merging a concatenation of independently merged pieces gives the same
result as merging the concatenation of the raw pieces. -/
theorem mergeRun_join_map (L : List (List DSeg)) :
    mergeRun (L.map mergeRun).flatten = mergeRun L.flatten := by
  induction L with
  | nil => rfl
  | cons c cs ih =>
    simp only [List.map_cons, List.flatten_cons]
    rw [mergeRun_append_left]
    have h1 : mergeRun (c ++ (cs.map mergeRun).flatten) =
        mergeRun (c ++ mergeRun (cs.map mergeRun).flatten) :=
      (mergeRun_append_right c _).symm
    have h2 : mergeRun (c ++ mergeRun cs.flatten) = mergeRun (c ++ cs.flatten) :=
      mergeRun_append_right c _
    rw [h1, ih, h2]

/-- No two consecutive segments produced by the sweep still satisfy the
merge condition. -/
theorem mergeScan_chain_not_canMerge (cur : DSeg) (l : List DSeg) :
    List.Chain' (fun a b => canMergeB a b = false) (mergeScan cur l) := by
  induction l generalizing cur with
  | nil => simp [mergeScan]
  | cons n rest ih =>
    simp only [mergeScan]
    by_cases h : canMergeB cur n
    · simpa [h] using ih (mergeInto cur n)
    · simp only [h, if_false, Bool.false_eq_true]
      obtain ⟨e, d, t, ht⟩ := mergeScan_head n rest
      rw [ht]
      refine List.chain'_cons.mpr ⟨?_, by rw [← ht]; exact ih n⟩
      have hcm : canMergeB cur (DSeg.mk n.start e n.speaker d) = canMergeB cur n := by
        simp [canMergeB]
      rw [hcm]
      exact Bool.not_eq_true _ |>.mp h

/-- The sweep preserves sortedness by start time. -/
theorem mergeScan_sorted (cur : DSeg) (l : List DSeg)
    (h : List.Chain' (fun a b => a.start ≤ b.start) (cur :: l)) :
    List.Chain' (fun a b => a.start ≤ b.start) (mergeScan cur l) := by
  induction l generalizing cur with
  | nil => simp [mergeScan]
  | cons n rest ih =>
    simp only [mergeScan]
    rw [List.chain'_cons] at h
    by_cases hm : canMergeB cur n
    · simp only [hm, if_true]
      refine ih (mergeInto cur n) ?_
      match rest with
      | [] => simp
      | r :: rest2 =>
        rw [List.chain'_cons] at h ⊢
        exact ⟨le_trans h.1 h.2.1, h.2.2⟩
    · simp only [hm, if_false, Bool.false_eq_true]
      obtain ⟨e, d, t, ht⟩ := mergeScan_head n rest
      rw [ht]
      refine List.chain'_cons.mpr ⟨by simpa using h.1,
        by rw [← ht]; exact ih n h.2⟩

/-- The sweep preserves the non-overlap invariant (the end of each segment
is at most the start of the next). -/
theorem mergeScan_nonoverlap (cur : DSeg) (l : List DSeg)
    (h : List.Chain' (fun a b => a.end_ ≤ b.start) (cur :: l)) :
    List.Chain' (fun a b => a.end_ ≤ b.start) (mergeScan cur l) := by
  induction l generalizing cur with
  | nil => simp [mergeScan]
  | cons n rest ih =>
    simp only [mergeScan]
    rw [List.chain'_cons] at h
    by_cases hm : canMergeB cur n
    · simp only [hm, if_true]
      refine ih (mergeInto cur n) ?_
      match rest with
      | [] => simp
      | r :: rest2 =>
        rw [List.chain'_cons] at h ⊢
        exact ⟨by simpa [mergeInto] using h.2.1, h.2.2⟩
    · simp only [hm, if_false, Bool.false_eq_true]
      obtain ⟨e, d, t, ht⟩ := mergeScan_head n rest
      rw [ht]
      refine List.chain'_cons.mpr ⟨by simpa using h.1,
        by rw [← ht]; exact ih n h.2⟩

/-- Every segment produced by the sweep takes its start time and its
speaker from some input segment. -/
theorem mergeScan_mem_start (cur : DSeg) (l : List DSeg) :
    ∀ s ∈ mergeScan cur l, ∃ t ∈ cur :: l, s.start = t.start ∧ s.speaker = t.speaker := by
  induction l generalizing cur with
  | nil =>
    intro s hs
    simp only [mergeScan, List.mem_singleton] at hs
    exact ⟨cur, by simp [hs]⟩
  | cons n rest ih =>
    intro s hs
    simp only [mergeScan] at hs
    by_cases hm : canMergeB cur n
    · rw [if_pos hm] at hs
      obtain ⟨t, ht, hts⟩ := ih (mergeInto cur n) s hs
      rcases List.mem_cons.mp ht with h1 | h1
      · exact ⟨cur, by simp, by simpa [h1, mergeInto] using hts⟩
      · exact ⟨t, by simp [h1], hts⟩
    · rw [if_neg hm] at hs
      rcases List.mem_cons.mp hs with h1 | h1
      · exact ⟨cur, by simp, by simp [h1]⟩
      · obtain ⟨t, ht, hts⟩ := ih n s h1
        exact ⟨t, by simpa using List.mem_cons_of_mem cur ht, hts⟩

/-! ### Sorting lemmas -/

theorem startLE_trans (a b c : DSeg) (h1 : startLE a b = true) (h2 : startLE b c = true) :
    startLE a c = true := by
  simp only [startLE, decide_eq_true_eq] at h1 h2 ⊢
  exact le_trans h1 h2

theorem startLE_total (a b : DSeg) : (startLE a b || startLE b a) = true := by
  simp only [startLE, Bool.or_eq_true, decide_eq_true_eq]
  exact le_total a.start b.start

/-- The output of the Python sort is sorted by start time. -/
theorem sortByStart_chain (l : List DSeg) :
    List.Chain' (fun a b => a.start ≤ b.start) (sortByStart l) := by
  have hp := List.sorted_mergeSort startLE_trans startLE_total l
  refine List.Pairwise.chain' (hp.imp ?_)
  intro a b hab
  simpa [startLE] using hab

/-- Sorting an already sorted list is the identity (Python's `sorted` and
`list.sort` are stable). -/
theorem sortByStart_of_chain (l : List DSeg)
    (h : List.Chain' (fun a b => a.start ≤ b.start) l) : sortByStart l = l := by
  refine List.mergeSort_of_sorted ?_
  have : IsTrans DSeg (fun a b => a.start ≤ b.start) :=
    ⟨fun _ _ _ h1 h2 => le_trans h1 h2⟩
  have hp : List.Pairwise (fun a b : DSeg => a.start ≤ b.start) l := by
    rw [← List.chain'_iff_pairwise]
    exact h
  exact hp.imp (by intro a b hab; simpa [startLE] using hab)

theorem mergePass_chain_sorted (l : List DSeg) :
    List.Chain' (fun a b => a.start ≤ b.start) (mergePass l) := by
  unfold mergePass
  match hs : sortByStart l with
  | [] => simp [mergeRun]
  | x :: xs =>
    simp only [mergeRun]
    exact mergeScan_sorted x xs (by rw [← hs]; exact sortByStart_chain l)

theorem mergePass_chain_not_canMerge (l : List DSeg) :
    List.Chain' (fun a b => canMergeB a b = false) (mergePass l) := by
  unfold mergePass
  match sortByStart l with
  | [] => simp [mergeRun]
  | x :: xs => exact mergeScan_chain_not_canMerge x xs

/-! ### Claim C6: the merge pass is idempotent -/

/-- C6.  The same-speaker merge pass of
`SpeakerDiarization._process_diarization_results` is idempotent: running
the merge pass (sort by start + single sweep) on its own output returns
the output unchanged, and indeed no pair of consecutive output segments
still satisfies the merge condition (same speaker with a gap of at most
the 0.15 s collar). -/
theorem mergePass_idempotent (l : List DSeg) :
    mergePass (mergePass l) = mergePass l ∧
      List.Chain' (fun a b => canMergeB a b = false) (mergePass l) := by
  constructor
  · have hs : sortByStart (mergePass l) = mergePass l :=
      sortByStart_of_chain _ (mergePass_chain_sorted l)
    show mergeRun (sortByStart (mergePass l)) = mergePass l
    rw [hs]
    show mergeRun (mergeRun (sortByStart l)) = mergePass l
    exact mergeRun_idem _
  · exact mergePass_chain_not_canMerge l

/-! ### Claim C3: sortedness and non-overlap of the consolidated output -/

/-- A concrete pair of overlapping raw turns from two different speakers. -/
def overlapTurns : List DSeg :=
  [DSeg.mk 0 10 "Speaker 1" 10, DSeg.mk 5 8 "Speaker 2" 3]

/-- C3 counterexample.  The claim "the consolidated segment list contains
no overlapping segments, for every list of raw speaker turns" is false:
two overlapping turns by different speakers pass through the merge pass
unchanged, and the first ends (at 10) after the second starts (at 5). -/
theorem mergePass_overlap_counterexample :
    ¬ List.Chain' (fun a b => a.end_ ≤ b.start) (mergePass overlapTurns) := by
  have hchain : List.Chain' (fun a b : DSeg => a.start ≤ b.start) overlapTurns := by
    simp only [overlapTurns, List.chain'_cons, List.chain'_singleton, and_true]
    norm_num
  have hsort : sortByStart overlapTurns = overlapTurns :=
    sortByStart_of_chain _ hchain
  have hcm : canMergeB (DSeg.mk 0 10 "Speaker 1" 10) (DSeg.mk 5 8 "Speaker 2" 3) = false := by
    simp [canMergeB]
  have heval : mergePass overlapTurns = overlapTurns := by
    unfold mergePass
    rw [hsort]
    simp [overlapTurns, mergeRun, mergeScan, hcm]
  rw [heval]
  simp only [overlapTurns, List.chain'_cons, List.chain'_singleton, and_true]
  norm_num

/-- C3 amended.  For every list of raw speaker turns the merge pass output
is sorted by start time; and provided the input turns are themselves
non-overlapping (once sorted by start, each turn ends no later than the
next begins), the output contains no overlapping segments either. -/
theorem mergePass_sorted_and_nonoverlap (l : List DSeg) :
    List.Chain' (fun a b => a.start ≤ b.start) (mergePass l) ∧
      (List.Chain' (fun a b => a.end_ ≤ b.start) (sortByStart l) →
        List.Chain' (fun a b => a.end_ ≤ b.start) (mergePass l)) := by
  refine ⟨mergePass_chain_sorted l, ?_⟩
  intro h
  unfold mergePass
  match hs : sortByStart l with
  | [] => simp [mergeRun]
  | x :: xs =>
    simp only [mergeRun]
    exact mergeScan_nonoverlap x xs (by rw [← hs]; exact h)

/-- Witness for the amended C3 at a concrete input: two same-speaker,
non-overlapping turns 0.1 s apart merge into a single segment, and the
output is sorted and non-overlapping. -/
theorem mergePass_sorted_and_nonoverlap_witness :
    List.Chain' (fun a b => a.end_ ≤ b.start)
        (sortByStart [DSeg.mk 0 1 "Speaker 1" 1, DSeg.mk (11/10) 2 "Speaker 1" (9/10)]) ∧
      List.Chain' (fun a b => a.end_ ≤ b.start)
        (mergePass [DSeg.mk 0 1 "Speaker 1" 1, DSeg.mk (11/10) 2 "Speaker 1" (9/10)]) := by
  have hchain : List.Chain' (fun a b : DSeg => a.start ≤ b.start)
      [DSeg.mk 0 1 "Speaker 1" 1, DSeg.mk (11/10) 2 "Speaker 1" (9/10)] := by
    simp only [List.chain'_cons, List.chain'_singleton, and_true]
    norm_num
  have hsort : sortByStart [DSeg.mk 0 1 "Speaker 1" 1, DSeg.mk (11/10) 2 "Speaker 1" (9/10)] =
      [DSeg.mk 0 1 "Speaker 1" 1, DSeg.mk (11/10) 2 "Speaker 1" (9/10)] :=
    sortByStart_of_chain _ hchain
  have hno : List.Chain' (fun a b : DSeg => a.end_ ≤ b.start)
      (sortByStart [DSeg.mk 0 1 "Speaker 1" 1, DSeg.mk (11/10) 2 "Speaker 1" (9/10)]) := by
    rw [hsort]
    simp only [List.chain'_cons, List.chain'_singleton, and_true]
    norm_num
  exact ⟨hno, (mergePass_sorted_and_nonoverlap _).2 hno⟩

/-! ### Claim C9: confidence scores stay in [0, 1] -/

/-- C9.  The confidence of a consolidated segment is
`round(min(0.9, max(0.6, duration / 10)) + jitter, 2)` with the jitter
drawn from `uniform(-0.1, 0.1)`; for every duration and every jitter in
that range the result lies in [0, 1] (in fact in [0.5, 1]). -/
theorem confidenceScore_mem_unit (d j : ℚ) (h1 : -(1/10) ≤ j) (h2 : j ≤ 1/10) :
    0 ≤ confidenceScore d j ∧ confidenceScore d j ≤ 1 := by
  have hbase1 : (6/10 : ℚ) ≤ min (9/10) (max (6/10) (d/10)) := by
    refine le_min (by norm_num) (le_max_left _ _)
  have hbase2 : min (9/10 : ℚ) (max (6/10) (d/10)) ≤ 9/10 := min_le_left _ _
  set x : ℚ := min (9/10) (max (6/10) (d/10)) + j with hx
  have hx1 : (1/2 : ℚ) ≤ x := by
    rw [hx]
    calc (1/2 : ℚ) = 6/10 + -(1/10) := by norm_num
    _ ≤ _ := add_le_add hbase1 h1
  have hx2 : x ≤ 1 := by
    rw [hx]
    calc min (9/10 : ℚ) (max (6/10) (d/10)) + j ≤ 9/10 + 1/10 := add_le_add hbase2 h2
    _ = 1 := by norm_num
  have hr1 : (50 : ℤ) ≤ round (100 * x) := by
    rw [round_eq]
    have : ((50 : ℚ) + 1/2) ≤ 100 * x + 1/2 := by nlinarith
    calc (50 : ℤ) = ⌊(50 : ℚ) + 1/2⌋ := by norm_num
    _ ≤ ⌊100 * x + 1/2⌋ := Int.floor_mono this
  have hr2 : round (100 * x) ≤ (100 : ℤ) := by
    rw [round_eq]
    have : 100 * x + 1/2 ≤ (100 : ℚ) + 1/2 := by nlinarith
    calc ⌊100 * x + 1/2⌋ ≤ ⌊(100 : ℚ) + 1/2⌋ := Int.floor_mono this
    _ = 100 := by norm_num
  have hdef : confidenceScore d j = ((round (100 * x) : ℤ) : ℚ) / 100 := by
    simp [confidenceScore, round2, hx]
  constructor
  · rw [hdef]
    have : (50 : ℚ) ≤ ((round (100 * x) : ℤ) : ℚ) := by exact_mod_cast hr1
    positivity
  · rw [hdef]
    have : ((round (100 * x) : ℤ) : ℚ) ≤ 100 := by exact_mod_cast hr2
    linarith

/-- Witness for C9 at duration 3 and jitter 1/20. -/
theorem confidenceScore_mem_unit_witness :
    (-(1/10) ≤ (1/20 : ℚ) ∧ (1/20 : ℚ) ≤ 1/10) ∧
      0 ≤ confidenceScore 3 (1/20) ∧ confidenceScore 3 (1/20) ≤ 1 :=
  ⟨⟨by norm_num, by norm_num⟩, confidenceScore_mem_unit 3 (1/20) (by norm_num) (by norm_num)⟩

/-! ### Claim C4: enforcing a target speaker count of two
(`SpeakerDiarization._enforce_two_speakers`, diarization.py lines 302-365) -/

/-- The speaker labels of a segment list. -/
def speakerNames (l : List DSeg) : List String := l.map (fun s => s.speaker)

/-- The set of distinct speaker identities of a segment list. -/
def speakerFinset (l : List DSeg) : Finset String := (speakerNames l).toFinset

/-- Distinct elements in order of first occurrence: the key order of the
`speaker_counts` dict built by iterating the segments (Python dicts
preserve insertion order). -/
def firstOccur : List String → List String
  | [] => []
  | a :: l => a :: firstOccur (l.filter (fun b => b ≠ a))
termination_by l => l.length
decreasing_by
  simpa using Nat.lt_succ_of_le (List.length_filter_le _ _)

theorem mem_firstOccur (L : List String) : ∀ x, x ∈ firstOccur L ↔ x ∈ L := by
  induction L using firstOccur.induct with
  | case1 => simp [firstOccur]
  | case2 a l ih =>
    intro x
    simp only [firstOccur, List.mem_cons, ih x, List.mem_filter,
      decide_eq_true_eq]
    by_cases hx : x = a
    · simp [hx]
    · simp [hx]

theorem firstOccur_nodup (L : List String) : (firstOccur L).Nodup := by
  induction L using firstOccur.induct with
  | case1 => simp [firstOccur]
  | case2 a l ih =>
    simp only [firstOccur, List.nodup_cons]
    refine ⟨?_, ih⟩
    intro hmem
    have := (mem_firstOccur _ a).mp hmem
    simp at this

theorem firstOccur_length (L : List String) : (firstOccur L).length = L.toFinset.card := by
  have h1 : (firstOccur L).toFinset = L.toFinset := by
    ext x
    simp [List.mem_toFinset, mem_firstOccur]
  calc (firstOccur L).length = (firstOccur L).toFinset.card :=
        (List.toFinset_card_of_nodup (firstOccur_nodup L)).symm
    _ = L.toFinset.card := by rw [h1]

/-- Flipping the active identity
(`current_speaker = speaker2 if current_speaker == speaker1 else speaker1`). -/
def flipSpeaker (sp1 sp2 cur : String) : String := if cur = sp1 then sp2 else sp1

/-- The single-observed-speaker split (diarization.py lines 349-361): walk
the segments sorted by start, assigning the active identity, and flip the
identity after any inter-segment silence longer than 0.5 s. -/
def splitByGaps (sp1 sp2 : String) : String → List DSeg → List DSeg
  | _, [] => []
  | cur, [s] => [{ s with speaker := cur }]
  | cur, s :: t :: rest =>
    { s with speaker := cur } ::
      splitByGaps sp1 sp2
        (if t.start - s.end_ > 1/2 then flipSpeaker sp1 sp2 cur else cur) (t :: rest)

/-- Is there an inter-segment silence longer than 0.5 s between two
consecutive segments of the (sorted) list? -/
def hasBigGap : List DSeg → Bool
  | [] => false
  | [_] => false
  | s :: t :: rest => decide (t.start - s.end_ > 1/2) || hasBigGap (t :: rest)

/-- `SpeakerDiarization._enforce_two_speakers` (diarization.py lines
302-365).  Empty input is returned as is; exactly two observed speakers is
a no-op; more than two observed speakers keeps the two most frequent (by
segment count, stably sorted in descending order, as Python's
`sorted(..., reverse=True)`) and remaps every other speaker onto the most
frequent one; a single observed speaker is split by `splitByGaps`. -/
def speakerCounts (segments : List DSeg) : List (String × ℕ) :=
  (firstOccur (speakerNames segments)).map
    (fun sp => (sp, (segments.filter (fun s => s.speaker = sp)).length))

/-- `sorted(speaker_counts.items(), key=lambda x: x[1], reverse=True)`:
stable sort of the per-speaker segment counts in descending order. -/
def topSorted (segments : List DSeg) : List (String × ℕ) :=
  (speakerCounts segments).mergeSort (fun a b => decide (b.2 ≤ a.2))

def enforceTwoSpeakers (segments : List DSeg) : List DSeg :=
  if segments = [] then segments
  else
    let uniq := firstOccur (speakerNames segments)
    if uniq.length = 2 then segments
    else if 2 < uniq.length then
      let top := ((topSorted segments).take 2).map Prod.fst
      let top1 := match top with
        | t :: _ => t
        | [] => ""
      segments.map (fun s => if s.speaker ∈ top then s else { s with speaker := top1 })
    else
      let speaker1 := match uniq with
        | u :: _ => u
        | [] => ""
      let speaker2 := if speaker1 ≠ "Speaker 2" then "Speaker 2" else "Speaker 1"
      splitByGaps speaker1 speaker2 speaker1 (sortByStart segments)

theorem flipSpeaker_ne (sp1 sp2 cur : String) (h : sp1 ≠ sp2) :
    flipSpeaker sp1 sp2 cur ≠ cur := by
  unfold flipSpeaker
  by_cases hc : cur = sp1
  · simp only [hc, if_true]
    exact fun e => h (e.symm)
  · simp only [hc, if_false]
    exact fun e => hc e.symm

theorem splitByGaps_cons_head (sp1 sp2 cur : String) (s : DSeg) (l : List DSeg) :
    ∃ t, splitByGaps sp1 sp2 cur (s :: l) = { s with speaker := cur } :: t := by
  match l with
  | [] => exact ⟨[], rfl⟩
  | x :: xs => exact ⟨_, rfl⟩

theorem splitByGaps_speaker_mem (sp1 sp2 : String) :
    ∀ (l : List DSeg) (cur : String), ∀ s ∈ splitByGaps sp1 sp2 cur l,
      s.speaker = cur ∨ s.speaker = sp1 ∨ s.speaker = sp2 := by
  intro l
  induction l with
  | nil => intro cur s hs; simp [splitByGaps] at hs
  | cons x xs ih =>
    intro cur s hs
    match xs with
    | [] =>
      simp only [splitByGaps, List.mem_singleton] at hs
      subst hs
      exact Or.inl rfl
    | y :: ys =>
      simp only [splitByGaps, List.mem_cons] at hs
      rcases hs with h1 | h1
      · subst h1; exact Or.inl rfl
      · rcases ih _ s h1 with h2 | h2
        · by_cases hg : y.start - x.end_ > 1/2
          · rw [if_pos hg] at h2
            unfold flipSpeaker at h2
            by_cases hc : cur = sp1
            · rw [h2, if_pos hc]; exact Or.inr (Or.inr rfl)
            · rw [h2, if_neg hc]; exact Or.inr (Or.inl rfl)
          · rw [if_neg hg] at h2
            exact Or.inl h2
        · exact Or.inr h2

theorem splitByGaps_all_cur (sp1 sp2 : String) :
    ∀ (l : List DSeg) (cur : String), hasBigGap l = false →
      ∀ s ∈ splitByGaps sp1 sp2 cur l, s.speaker = cur := by
  intro l
  induction l with
  | nil => intro cur _ s hs; simp [splitByGaps] at hs
  | cons x xs ih =>
    intro cur hgap s hs
    match xs with
    | [] =>
      simp only [splitByGaps, List.mem_singleton] at hs
      subst hs
      rfl
    | y :: ys =>
      simp only [hasBigGap, Bool.or_eq_false_iff, decide_eq_false_iff_not] at hgap
      simp only [splitByGaps, List.mem_cons] at hs
      rcases hs with h1 | h1
      · subst h1; rfl
      · rw [if_neg hgap.1] at h1
        exact ih cur hgap.2 s h1

theorem splitByGaps_both_speakers (sp1 sp2 : String) :
    ∀ (l : List DSeg) (cur : String), hasBigGap l = true →
      cur ∈ speakerNames (splitByGaps sp1 sp2 cur l) ∧
        flipSpeaker sp1 sp2 cur ∈ speakerNames (splitByGaps sp1 sp2 cur l) := by
  intro l
  induction l with
  | nil => intro cur h; simp [hasBigGap] at h
  | cons x xs ih =>
    intro cur hgap
    match xs with
    | [] => simp [hasBigGap] at hgap
    | y :: ys =>
      simp only [hasBigGap, Bool.or_eq_true, decide_eq_true_eq] at hgap
      by_cases hg : y.start - x.end_ > 1/2
      · constructor
        · simp [splitByGaps, speakerNames]
        · obtain ⟨t, ht⟩ := splitByGaps_cons_head sp1 sp2
            (flipSpeaker sp1 sp2 cur) y ys
          simp only [splitByGaps, if_pos hg, speakerNames, List.map_cons, ht]
          simp
      · rcases hgap with h1 | h1
        · exact absurd h1 hg
        · have := ih cur h1
          constructor
          · simp [splitByGaps, speakerNames]
          · simp only [splitByGaps, if_neg hg, speakerNames, List.map_cons,
              List.mem_cons]
            exact Or.inr (by simpa [speakerNames] using this.2)

theorem splitByGaps_alternates (sp1 sp2 : String) (hne : sp1 ≠ sp2) :
    ∀ (l : List DSeg) (cur : String),
      List.Chain' (fun a b => b.speaker ≠ a.speaker ↔ b.start - a.end_ > 1/2)
        (splitByGaps sp1 sp2 cur l) := by
  intro l
  induction l with
  | nil => intro cur; simp [splitByGaps]
  | cons x xs ih =>
    intro cur
    match xs with
    | [] => simp [splitByGaps]
    | y :: ys =>
      obtain ⟨t, ht⟩ := splitByGaps_cons_head sp1 sp2
        (if y.start - x.end_ > 1/2 then flipSpeaker sp1 sp2 cur else cur) y ys
      simp only [splitByGaps] at ht ⊢
      rw [ht]
      refine List.chain'_cons.mpr ⟨?_, by rw [← ht]; exact ih _⟩
      simp only
      by_cases hg : y.start - x.end_ > 1/2
      · rw [if_pos hg]
        constructor
        · intro _; exact hg
        · intro _; exact flipSpeaker_ne sp1 sp2 cur hne
      · rw [if_neg hg]
        constructor
        · intro hcontra; exact absurd rfl hcontra
        · intro hcontra; exact absurd hcontra hg

theorem splitByGaps_ne_nil (sp1 sp2 cur : String) (l : List DSeg) (h : l ≠ []) :
    splitByGaps sp1 sp2 cur l ≠ [] := by
  match l with
  | [] => exact absurd rfl h
  | [s] => simp [splitByGaps]
  | s :: t :: rest => simp [splitByGaps]

theorem mem_speakerFinset (x : String) (l : List DSeg) :
    x ∈ speakerFinset l ↔ ∃ s ∈ l, s.speaker = x := by
  simp [speakerFinset, speakerNames, List.mem_toFinset]

theorem speakerFinset_card_eq (l : List DSeg) :
    (speakerFinset l).card = (firstOccur (speakerNames l)).length := by
  rw [firstOccur_length]
  rfl

/-- A single one-minute turn by a single speaker. -/
def singleTurn : List DSeg := [DSeg.mk 0 60 "Speaker 1" 60]

/-- C4 counterexample.  `_enforce_two_speakers` does not always return two
distinct identities on non-empty input: a single turn spanning the whole
clip has no inter-segment gap to split at, so the output keeps exactly one
speaker identity. -/
theorem enforceTwoSpeakers_counterexample :
    singleTurn ≠ [] ∧ (speakerFinset (enforceTwoSpeakers singleTurn)).card ≠ 2 := by
  refine ⟨by simp [singleTurn], ?_⟩
  have hsort : sortByStart singleTurn = singleTurn :=
    sortByStart_of_chain _ (by simp [singleTurn])
  have heval : enforceTwoSpeakers singleTurn = singleTurn := by
    unfold enforceTwoSpeakers
    rw [if_neg (by simp [singleTurn] : ¬ singleTurn = [])]
    have huniq : firstOccur (speakerNames singleTurn) = ["Speaker 1"] := by
      simp [speakerNames, singleTurn, firstOccur]
    simp only [huniq, List.length_singleton]
    rw [if_neg (by norm_num), if_neg (by norm_num), hsort]
    simp [singleTurn, splitByGaps]
  rw [heval]
  have : speakerFinset singleTurn = {"Speaker 1"} := by
    ext x
    simp [mem_speakerFinset, singleTurn, eq_comm]
  rw [this]
  simp

theorem topSorted_map_fst_perm (l : List DSeg) :
    ((topSorted l).map Prod.fst).Perm (firstOccur (speakerNames l)) := by
  have h := (List.mergeSort_perm (speakerCounts l) (fun a b => decide (b.2 ≤ a.2))).map Prod.fst
  have hid : (Prod.fst ∘ fun sp : String =>
      (sp, (l.filter (fun s => s.speaker = sp)).length)) = id := rfl
  simpa [topSorted, speakerCounts, List.map_map, hid] using h

theorem topSorted_fst_nodup (l : List DSeg) : ((topSorted l).map Prod.fst).Nodup :=
  ((topSorted_map_fst_perm l).nodup_iff).mpr (firstOccur_nodup _)

theorem topSorted_length (l : List DSeg) :
    (topSorted l).length = (firstOccur (speakerNames l)).length := by
  have h := (topSorted_map_fst_perm l).length_eq
  simpa using h

theorem enforceTwoSpeakers_eq_self (l : List DSeg) (hne : ¬ l = [])
    (h2 : (firstOccur (speakerNames l)).length = 2) : enforceTwoSpeakers l = l := by
  unfold enforceTwoSpeakers
  rw [if_neg hne]
  simp only [h2, if_true]

theorem enforceTwoSpeakers_eq_top (l : List DSeg) (hne : ¬ l = [])
    (h2 : ¬ (firstOccur (speakerNames l)).length = 2)
    (h3 : 2 < (firstOccur (speakerNames l)).length)
    (p0 p1 : String × ℕ) (rest : List (String × ℕ))
    (hts : topSorted l = p0 :: p1 :: rest) :
    enforceTwoSpeakers l =
      l.map (fun s => if s.speaker ∈ [p0.1, p1.1] then s else { s with speaker := p0.1 }) := by
  unfold enforceTwoSpeakers
  rw [if_neg hne]
  simp only [h2, if_false, h3, if_true, hts, List.take_succ_cons, List.take_zero,
    List.map_cons, List.map_nil]

theorem enforceTwoSpeakers_eq_split (l : List DSeg) (hne : ¬ l = []) (sp1 : String)
    (hsp1 : firstOccur (speakerNames l) = [sp1]) :
    enforceTwoSpeakers l =
      splitByGaps sp1 (if sp1 ≠ "Speaker 2" then "Speaker 2" else "Speaker 1") sp1
        (sortByStart l) := by
  unfold enforceTwoSpeakers
  rw [if_neg hne]
  simp only [hsp1, List.length_singleton]
  rw [if_neg (by norm_num), if_neg (by norm_num)]

theorem enforceTwo_card_top (l : List DSeg) (hne : l ≠ [])
    (h2 : ¬ (firstOccur (speakerNames l)).length = 2)
    (h3 : 2 < (firstOccur (speakerNames l)).length) :
    (speakerFinset (enforceTwoSpeakers l)).card = 2 := by
  have hlen : 2 ≤ (topSorted l).length := by
    rw [topSorted_length]
    omega
  match hts : topSorted l with
  | [] => rw [hts] at hlen; simp at hlen
  | [p] => rw [hts] at hlen; simp at hlen
  | p0 :: p1 :: rest =>
    have heval := enforceTwoSpeakers_eq_top l hne h2 h3 p0 p1 rest hts
    have hnodup : ((topSorted l).map Prod.fst).Nodup := topSorted_fst_nodup l
    rw [hts] at hnodup
    simp only [List.map_cons, List.nodup_cons] at hnodup
    have hne01 : p0.1 ≠ p1.1 := fun e => hnodup.1 (by simp [e])
    have hp0U : p0.1 ∈ firstOccur (speakerNames l) := by
      have hmem : p0.1 ∈ (topSorted l).map Prod.fst := by rw [hts]; simp
      exact (topSorted_map_fst_perm l).mem_iff.mp hmem
    have hp1U : p1.1 ∈ firstOccur (speakerNames l) := by
      have hmem : p1.1 ∈ (topSorted l).map Prod.fst := by rw [hts]; simp
      exact (topSorted_map_fst_perm l).mem_iff.mp hmem
    obtain ⟨s0, hs0l, hs0sp⟩ : ∃ s ∈ l, s.speaker = p0.1 := by
      have hm := (mem_firstOccur _ _).mp hp0U
      simpa [speakerNames, List.mem_map] using hm
    obtain ⟨s1, hs1l, hs1sp⟩ : ∃ s ∈ l, s.speaker = p1.1 := by
      have hm := (mem_firstOccur _ _).mp hp1U
      simpa [speakerNames, List.mem_map] using hm
    have hset : speakerFinset (enforceTwoSpeakers l) = {p0.1, p1.1} := by
      rw [heval]
      ext x
      rw [mem_speakerFinset]
      simp only [List.mem_map, Finset.mem_insert, Finset.mem_singleton]
      constructor
      · rintro ⟨s, ⟨s', hs', rfl⟩, hsp⟩
        by_cases hm : s'.speaker ∈ [p0.1, p1.1]
        · rw [if_pos hm] at hsp
          rw [← hsp]
          simpa using hm
        · rw [if_neg hm] at hsp
          exact Or.inl hsp.symm
      · rintro (rfl | rfl)
        · refine ⟨if s0.speaker ∈ [p0.1, p1.1] then s0 else { s0 with speaker := p0.1 },
            ⟨s0, hs0l, rfl⟩, ?_⟩
          rw [if_pos (by simp [hs0sp])]
          exact hs0sp
        · refine ⟨if s1.speaker ∈ [p0.1, p1.1] then s1 else { s1 with speaker := p0.1 },
            ⟨s1, hs1l, rfl⟩, ?_⟩
          rw [if_pos (by simp [hs1sp])]
          exact hs1sp
    rw [hset]
    exact Finset.card_pair hne01

theorem enforceTwo_single (l : List DSeg) (hne : l ≠ []) (sp1 : String)
    (hsp1 : firstOccur (speakerNames l) = [sp1]) :
    ∃ sp2, sp1 ≠ sp2 ∧
      speakerFinset (enforceTwoSpeakers l) ⊆ {sp1, sp2} ∧
      ((speakerFinset (enforceTwoSpeakers l)).card = 2 ↔
        hasBigGap (sortByStart l) = true) ∧
      List.Chain' (fun a b => b.speaker ≠ a.speaker ↔ b.start - a.end_ > 1/2)
        (enforceTwoSpeakers l) := by
  refine ⟨if sp1 ≠ "Speaker 2" then "Speaker 2" else "Speaker 1", ?_, ?_, ?_, ?_⟩
  case _ =>
    by_cases hs : sp1 = "Speaker 2"
    · rw [if_neg (by simp [hs])]
      rw [hs]
      decide
    · rw [if_pos hs]
      exact hs
  case _ =>
    rw [enforceTwoSpeakers_eq_split l hne sp1 hsp1]
    intro x hx
    rw [mem_speakerFinset] at hx
    obtain ⟨s, hs, hsp⟩ := hx
    rcases splitByGaps_speaker_mem _ _ _ _ s hs with h | h | h
    · simp [← hsp, h]
    · simp [← hsp, h]
    · simp [← hsp, h]
  case _ =>
    have hne12 : sp1 ≠ (if sp1 ≠ "Speaker 2" then "Speaker 2" else "Speaker 1") := by
      by_cases hs : sp1 = "Speaker 2"
      · rw [if_neg (by simp [hs]), hs]
        decide
      · rw [if_pos hs]
        exact hs
    have hsortne : sortByStart l ≠ [] := by
      have hlen := (List.mergeSort_perm l startLE).length_eq
      intro hcon
      rw [sortByStart] at hcon
      rw [hcon] at hlen
      exact hne (List.length_eq_zero.mp hlen.symm)
    rw [enforceTwoSpeakers_eq_split l hne sp1 hsp1]
    constructor
    · intro hcard
      by_cases hgap : hasBigGap (sortByStart l) = true
      · exact hgap
      · exfalso
        have hgapf : hasBigGap (sortByStart l) = false := by
          exact Bool.not_eq_true _ |>.mp hgap
        have hall := splitByGaps_all_cur sp1
          (if sp1 ≠ "Speaker 2" then "Speaker 2" else "Speaker 1")
          (sortByStart l) sp1 hgapf
        have hsub : speakerFinset (splitByGaps sp1
            (if sp1 ≠ "Speaker 2" then "Speaker 2" else "Speaker 1") sp1
            (sortByStart l)) ⊆ {sp1} := by
          intro x hx
          rw [mem_speakerFinset] at hx
          obtain ⟨s, hs, hsp⟩ := hx
          simp [← hsp, hall s hs]
        have hle := Finset.card_le_card hsub
        rw [hcard] at hle
        simp at hle
    · intro hgap
      have hboth := splitByGaps_both_speakers sp1
        (if sp1 ≠ "Speaker 2" then "Speaker 2" else "Speaker 1")
        (sortByStart l) sp1 hgap
      have hflip : flipSpeaker sp1
          (if sp1 ≠ "Speaker 2" then "Speaker 2" else "Speaker 1") sp1 =
          (if sp1 ≠ "Speaker 2" then "Speaker 2" else "Speaker 1") := by
        simp [flipSpeaker]
      rw [hflip] at hboth
      have hset : speakerFinset (splitByGaps sp1
          (if sp1 ≠ "Speaker 2" then "Speaker 2" else "Speaker 1") sp1
          (sortByStart l)) =
          {sp1, if sp1 ≠ "Speaker 2" then "Speaker 2" else "Speaker 1"} := by
        refine Finset.Subset.antisymm ?_ ?_
        · intro x hx
          rw [mem_speakerFinset] at hx
          obtain ⟨s, hs, hsp⟩ := hx
          rcases splitByGaps_speaker_mem _ _ _ _ s hs with h | h | h
          · simp [← hsp, h]
          · simp [← hsp, h]
          · simp [← hsp, h]
        · intro x hx
          rcases Finset.mem_insert.mp hx with h | h
          · subst h
            exact List.mem_toFinset.mpr hboth.1
          · rw [Finset.mem_singleton] at h
            subst h
            exact List.mem_toFinset.mpr hboth.2
      rw [hset]
      exact Finset.card_pair hne12
  case _ =>
    have hne12 : sp1 ≠ (if sp1 ≠ "Speaker 2" then "Speaker 2" else "Speaker 1") := by
      by_cases hs : sp1 = "Speaker 2"
      · rw [if_neg (by simp [hs]), hs]
        decide
      · rw [if_pos hs]
        exact hs
    rw [enforceTwoSpeakers_eq_split l hne sp1 hsp1]
    exact splitByGaps_alternates _ _ hne12 _ _

/-- C4 amended.  For every non-empty list of consolidated segments,
`_enforce_two_speakers` returns a list with at most 2 distinct speaker
identities; with at least 2 observed speakers the result has exactly 2
identities; with exactly one observed speaker the result has exactly 2
identities precisely when some inter-segment silence (in start order)
exceeds 0.5 s, and consecutive output segments change identity exactly at
such gaps (the heuristic turn-taking split). -/
theorem enforceTwoSpeakers_spec (l : List DSeg) (hne : l ≠ []) :
    (speakerFinset (enforceTwoSpeakers l)).card ≤ 2 ∧
      (2 ≤ (speakerFinset l).card → (speakerFinset (enforceTwoSpeakers l)).card = 2) ∧
      ((speakerFinset l).card = 1 →
        ((speakerFinset (enforceTwoSpeakers l)).card = 2 ↔
          hasBigGap (sortByStart l) = true) ∧
        List.Chain' (fun a b => b.speaker ≠ a.speaker ↔ b.start - a.end_ > 1/2)
          (enforceTwoSpeakers l)) := by
  have hcardU : (speakerFinset l).card = (firstOccur (speakerNames l)).length :=
    speakerFinset_card_eq l
  have hUpos : 1 ≤ (firstOccur (speakerNames l)).length := by
    obtain ⟨s0, hs0⟩ := List.exists_mem_of_ne_nil l hne
    have h1 : s0.speaker ∈ speakerNames l := List.mem_map_of_mem _ hs0
    have h2 : s0.speaker ∈ firstOccur (speakerNames l) :=
      (mem_firstOccur _ _).mpr h1
    exact List.length_pos.mpr (List.ne_nil_of_mem h2)
  by_cases h2 : (firstOccur (speakerNames l)).length = 2
  · have heval := enforceTwoSpeakers_eq_self l hne h2
    rw [heval]
    have hc : (speakerFinset l).card = 2 := by rw [hcardU, h2]
    exact ⟨le_of_eq hc, fun _ => hc, fun h1 => absurd (h1 ▸ hc) (by omega)⟩
  · by_cases h3 : 2 < (firstOccur (speakerNames l)).length
    · have hc := enforceTwo_card_top l hne h2 h3
      refine ⟨le_of_eq hc, fun _ => hc, fun h1 => absurd h1 (by omega)⟩
    · have hU1 : (firstOccur (speakerNames l)).length = 1 := by omega
      obtain ⟨sp1, hsp1⟩ := List.length_eq_one.mp hU1
      obtain ⟨sp2, hne12, hsub, hiff, hchain⟩ := enforceTwo_single l hne sp1 hsp1
      have hle : (speakerFinset (enforceTwoSpeakers l)).card ≤ 2 := by
        refine le_trans (Finset.card_le_card hsub) ?_
        refine le_trans (Finset.card_insert_le _ _) ?_
        simp
      refine ⟨hle, fun hcontra => absurd hcontra (by omega), fun _ => ⟨hiff, hchain⟩⟩

/-- Witness for the amended C4: two turns by one speaker separated by a
0.6 s silence are split into exactly two identities, alternating at the
gap. -/
theorem enforceTwoSpeakers_spec_witness :
    ([DSeg.mk 0 1 "Speaker 1" 1, DSeg.mk (16/10) 2 "Speaker 1" (4/10)] ≠ [] ∧
      (speakerFinset [DSeg.mk 0 1 "Speaker 1" 1,
        DSeg.mk (16/10) 2 "Speaker 1" (4/10)]).card = 1) ∧
      (speakerFinset (enforceTwoSpeakers
        [DSeg.mk 0 1 "Speaker 1" 1, DSeg.mk (16/10) 2 "Speaker 1" (4/10)])).card = 2 := by
  have hne : [DSeg.mk 0 1 "Speaker 1" 1, DSeg.mk (16/10) 2 "Speaker 1" (4/10)] ≠ [] := by
    simp
  have hcard1 : (speakerFinset [DSeg.mk 0 1 "Speaker 1" 1,
      DSeg.mk (16/10) 2 "Speaker 1" (4/10)]).card = 1 := by
    have hset : speakerFinset [DSeg.mk 0 1 "Speaker 1" 1,
        DSeg.mk (16/10) 2 "Speaker 1" (4/10)] = {"Speaker 1"} := by
      ext x
      simp [mem_speakerFinset, eq_comm]
    rw [hset]
    simp
  have hspec := enforceTwoSpeakers_spec _ hne
  have hchain : List.Chain' (fun a b : DSeg => a.start ≤ b.start)
      [DSeg.mk 0 1 "Speaker 1" 1, DSeg.mk (16/10) 2 "Speaker 1" (4/10)] := by
    simp only [List.chain'_cons, List.chain'_singleton, and_true]
    norm_num
  have hsort : sortByStart [DSeg.mk 0 1 "Speaker 1" 1,
      DSeg.mk (16/10) 2 "Speaker 1" (4/10)] =
      [DSeg.mk 0 1 "Speaker 1" 1, DSeg.mk (16/10) 2 "Speaker 1" (4/10)] :=
    sortByStart_of_chain _ hchain
  have hgap : hasBigGap (sortByStart [DSeg.mk 0 1 "Speaker 1" 1,
      DSeg.mk (16/10) 2 "Speaker 1" (4/10)]) = true := by
    rw [hsort]
    simp only [hasBigGap, Bool.or_eq_true, decide_eq_true_eq]
    left
    norm_num
  exact ⟨⟨hne, hcard1⟩, ((hspec.2.2 hcard1).1).mpr hgap⟩

/-! ### Claim C7: chunked versus unchunked diarization
(`SpeakerDiarization._process_in_chunks`, diarization.py lines 394-497) -/

theorem round2_add_int (x : ℚ) (n : ℤ) : round2 (x + n) = round2 x + n := by
  unfold round2
  rw [mul_add]
  have h1 : (100 : ℚ) * (n : ℚ) = ((100 * n : ℤ) : ℚ) := by push_cast; ring
  rw [h1, round_add_int]
  push_cast
  ring

theorem round2_mono {x y : ℚ} (h : x ≤ y) : round2 x ≤ round2 y := by
  unfold round2
  have h1 : round (100 * x) ≤ round (100 * y) := by
    rw [round_eq, round_eq]
    exact Int.floor_mono (by linarith)
  have h2 : ((round (100 * x) : ℤ) : ℚ) ≤ ((round (100 * y) : ℤ) : ℚ) := by
    exact_mod_cast h1
  linarith

theorem round2_intCast (n : ℤ) : round2 (n : ℚ) = n := by
  unfold round2
  have h1 : (100 : ℚ) * (n : ℚ) = ((100 * n : ℤ) : ℚ) := by push_cast; ring
  rw [h1, round_intCast]
  push_cast
  ring

theorem round2_natCast (n : ℕ) : round2 (n : ℚ) = n := by
  have := round2_intCast (n : ℤ)
  simpa using this

theorem round2_zero : round2 0 = 0 := by
  have := round2_natCast 0
  simpa using this

/-- A raw speaker turn as yielded by the diarization pipeline collaborator
(`diarization.itertracks`): an interval and the collaborator's numeric
speaker index (the `k` of a `SPEAKER_k` / `speaker_k` label).  The pipeline
itself is external to the repository; for the chunked-versus-unchunked
comparison the per-chunk collaborator is modelled (from the spec's Diarizer
contract) as returning the turns of the recording that fall in the chunk,
with globally consistent speaker indices. -/
structure RawTurn where
  start : ℚ
  end_ : ℚ
  spk : ℕ
deriving DecidableEq, Repr

/-- `f"Speaker {int(speaker.split('_')[1]) + 1}"` (diarization.py line 263):
the display label derived from the collaborator's numeric index, and also
the shape of the fresh global labels `f"Speaker {len(speaker_mapping) + 1}"`
(line 458). -/
def speakerLabel (k : ℕ) : String := "Speaker " ++ toString (k + 1)

/-- The raw-segment dict built from one pyannote turn (diarization.py lines
259-266): start and end rounded to 2 decimals, renamed speaker, duration
rounded from the unrounded bounds. -/
def displayTurn (t : RawTurn) : DSeg :=
  DSeg.mk (round2 t.start) (round2 t.end_) (speakerLabel t.spk) (round2 (t.end_ - t.start))

/-- `_process_diarization_results` for a list of raw turns (minus the
confidence mutation, modelled separately): build the segment dicts, sort by
start, sweep-merge. -/
def procResults (l : List RawTurn) : List DSeg := mergePass (l.map displayTurn)

/-- Timestamp adjustment of a chunk's segments by the chunk offset
(diarization.py lines 450-453); `duration` is not touched. -/
def offsetSegs (c : ℚ) (l : List DSeg) : List DSeg :=
  l.map (fun s => { s with start := s.start + c, end_ := s.end_ + c })

/-- Shifting raw turns by a chunk offset (used to express the unchunked
input of the same recording). -/
def shiftRaw (c : ℚ) (l : List RawTurn) : List RawTurn :=
  l.map (fun t => { t with start := t.start + c, end_ := t.end_ + c })

/-- One step of the first-seen-wins speaker mapping (diarization.py lines
455-458): an unseen chunk-local label is assigned the next global label. -/
def relabelStep (m : List (String × String)) (sp : String) : List (String × String) :=
  if (m.lookup sp).isSome then m else m ++ [(sp, speakerLabel m.length)]

/-- Applying the shared speaker mapping to every segment in order
(diarization.py lines 455-460), threading the mapping. -/
def relabelAll : List (String × String) → List DSeg → List (String × String) × List DSeg
  | m, [] => (m, [])
  | m, seg :: rest =>
    let m2 := relabelStep m seg.speaker
    let done := relabelAll m2 rest
    (done.1, { seg with speaker := (m2.lookup seg.speaker).getD seg.speaker } :: done.2)

/-- The per-chunk results of `_process_in_chunks`: chunk `i` is processed by
`_process_diarization_results` and its timestamps are offset by
`i * chunk_duration` seconds. -/
def chunkPieces (D : ℕ) : ℕ → List (List RawTurn) → List (List DSeg)
  | _, [] => []
  | i, cs :: rest => offsetSegs ((i * D : ℕ) : ℚ) (procResults cs) :: chunkPieces D (i + 1) rest

/-- `_process_in_chunks` (diarization.py lines 394-497) over the per-chunk
collaborator outputs `css`: process each chunk, offset, relabel through the
shared first-seen-wins mapping, concatenate, sort by start and re-run the
same-speaker merge sweep. -/
def chunkedDiarization (css : List (List RawTurn)) (D : ℕ) : List DSeg :=
  mergePass (relabelAll [] (chunkPieces D 0 css).flatten).2

/-- The unchunked input: the same recording's turns in global time. -/
def globalTurns (D : ℕ) : ℕ → List (List RawTurn) → List RawTurn
  | _, [] => []
  | i, cs :: rest => shiftRaw ((i * D : ℕ) : ℚ) cs ++ globalTurns D (i + 1) rest

/-- Unchunked diarization of the same recording:
`_process_diarization_results` on all turns at once. -/
def unchunkedDiarization (css : List (List RawTurn)) (D : ℕ) : List DSeg :=
  procResults (globalTurns D 0 css)

/-- Total speaking time per speaker
(`generate_speaker_statistics`, diarization.py lines 587-590). -/
def speakingTime (l : List DSeg) (sp : String) : ℚ :=
  ((l.filter (fun s => s.speaker = sp)).map (fun s => s.duration)).sum

theorem displayTurn_shiftRaw (n : ℕ) (cs : List RawTurn) :
    (shiftRaw (n : ℚ) cs).map displayTurn = offsetSegs (n : ℚ) (cs.map displayTurn) := by
  unfold shiftRaw offsetSegs
  rw [List.map_map, List.map_map]
  refine List.map_congr_left ?_
  intro t _
  have hcast : ((n : ℕ) : ℚ) = ((n : ℤ) : ℚ) := by push_cast; rfl
  have h1 : round2 (t.start + (n : ℚ)) = round2 t.start + (n : ℚ) := by
    rw [hcast, round2_add_int]
  have h2 : round2 (t.end_ + (n : ℚ)) = round2 t.end_ + (n : ℚ) := by
    rw [hcast, round2_add_int]
  have h3 : t.end_ + (n : ℚ) - (t.start + (n : ℚ)) = t.end_ - t.start := by ring
  simp [Function.comp, displayTurn, h1, h2, h3]

theorem canMergeB_offset (c : ℚ) (a b : DSeg) :
    canMergeB { a with start := a.start + c, end_ := a.end_ + c }
      { b with start := b.start + c, end_ := b.end_ + c } = canMergeB a b := by
  have h : b.start + c - (a.end_ + c) = b.start - a.end_ := by ring
  simp [canMergeB, h]

theorem mergeInto_offset (c : ℚ) (a b : DSeg) :
    mergeInto { a with start := a.start + c, end_ := a.end_ + c }
      { b with start := b.start + c, end_ := b.end_ + c } =
      { mergeInto a b with
          start := (mergeInto a b).start + c, end_ := (mergeInto a b).end_ + c } := by
  have h : b.end_ + c - (a.start + c) = b.end_ - a.start := by ring
  simp [mergeInto, h]

theorem mergeScan_offset (c : ℚ) :
    ∀ (l : List DSeg) (x : DSeg),
      mergeScan { x with start := x.start + c, end_ := x.end_ + c } (offsetSegs c l) =
        offsetSegs c (mergeScan x l) := by
  intro l
  induction l with
  | nil => intro x; simp [mergeScan, offsetSegs]
  | cons n rest ih =>
    intro x
    simp only [offsetSegs, List.map_cons, mergeScan, canMergeB_offset]
    by_cases h : canMergeB x n
    · simp only [h, if_true, mergeInto_offset]
      have := ih (mergeInto x n)
      simpa [offsetSegs] using this
    · simp only [h, if_false, Bool.false_eq_true, List.map_cons]
      have := ih n
      simp only [offsetSegs] at this
      rw [this]

theorem mergeRun_offset (c : ℚ) (l : List DSeg) :
    mergeRun (offsetSegs c l) = offsetSegs c (mergeRun l) := by
  match l with
  | [] => simp [mergeRun, offsetSegs]
  | x :: xs =>
    simp only [offsetSegs, List.map_cons, mergeRun]
    have := mergeScan_offset c xs x
    simpa [offsetSegs] using this

theorem mergeRun_mem_start (l : List DSeg) :
    ∀ s ∈ mergeRun l, ∃ t ∈ l, s.start = t.start ∧ s.speaker = t.speaker := by
  match l with
  | [] => intro s hs; simp [mergeRun] at hs
  | x :: xs =>
    intro s hs
    exact mergeScan_mem_start x xs s hs

theorem chain_map_displayTurn (cs : List RawTurn)
    (h : List.Chain' (fun a b : RawTurn => a.start ≤ b.start) cs) :
    List.Chain' (fun a b : DSeg => a.start ≤ b.start) (cs.map displayTurn) := by
  rw [List.chain'_map]
  exact List.Chain'.imp (fun a b hab => round2_mono hab) h

theorem procResults_of_sorted (cs : List RawTurn)
    (h : List.Chain' (fun a b : RawTurn => a.start ≤ b.start) cs) :
    procResults cs = mergeRun (cs.map displayTurn) := by
  unfold procResults mergePass
  rw [sortByStart_of_chain _ (chain_map_displayTurn cs h)]

theorem chunkPiece_eq (n : ℕ) (cs : List RawTurn)
    (h : List.Chain' (fun a b : RawTurn => a.start ≤ b.start) cs) :
    offsetSegs (n : ℚ) (procResults cs) =
      mergeRun ((shiftRaw (n : ℚ) cs).map displayTurn) := by
  rw [displayTurn_shiftRaw, procResults_of_sorted cs h, mergeRun_offset]

theorem shiftRaw_display_bounds (D i : ℕ) (cs : List RawTurn)
    (hb : ∀ t ∈ cs, 0 ≤ t.start ∧ t.start ≤ (D : ℚ)) :
    ∀ s ∈ (shiftRaw ((i * D : ℕ) : ℚ) cs).map displayTurn,
      ((i * D : ℕ) : ℚ) ≤ s.start ∧ s.start ≤ (((i + 1) * D : ℕ) : ℚ) := by
  intro s hs
  obtain ⟨u, huShift, rfl⟩ := List.mem_map.mp hs
  obtain ⟨t, ht, hu⟩ := List.mem_map.mp huShift
  have hustart : u.start = t.start + ((i * D : ℕ) : ℚ) := by
    rw [← hu]
  have hcast : ((i * D : ℕ) : ℚ) = (((i * D : ℕ) : ℤ) : ℚ) := by push_cast; ring
  have hstart : (displayTurn u).start = round2 t.start + ((i * D : ℕ) : ℚ) := by
    show round2 u.start = round2 t.start + ((i * D : ℕ) : ℚ)
    rw [hustart, hcast, round2_add_int]
  rw [hstart]
  have h0 : (0 : ℚ) ≤ round2 t.start := by
    have := round2_mono (hb t ht).1
    rwa [round2_zero] at this
  have hD : round2 t.start ≤ (D : ℚ) := by
    have := round2_mono (hb t ht).2
    simpa [round2_natCast D] using this
  constructor
  · linarith
  · have : (((i + 1) * D : ℕ) : ℚ) = ((i * D : ℕ) : ℚ) + (D : ℚ) := by push_cast; ring
    rw [this]
    linarith

theorem shiftRaw_chain (c : ℚ) (cs : List RawTurn)
    (h : List.Chain' (fun a b : RawTurn => a.start ≤ b.start) cs) :
    List.Chain' (fun a b : RawTurn => a.start ≤ b.start) (shiftRaw c cs) := by
  unfold shiftRaw
  rw [List.chain'_map]
  exact List.Chain'.imp (fun a b hab => by simpa using hab) h

/-- Sortedness and a lower start bound for the concatenated display
segments of the global (unchunked) turn list. -/
theorem globalTurns_map_sorted (D : ℕ) :
    ∀ (css : List (List RawTurn)) (i : ℕ),
      (∀ cs ∈ css, List.Chain' (fun a b : RawTurn => a.start ≤ b.start) cs) →
      (∀ cs ∈ css, ∀ t ∈ cs, 0 ≤ t.start ∧ t.start ≤ (D : ℚ)) →
      List.Chain' (fun a b : DSeg => a.start ≤ b.start)
          ((globalTurns D i css).map displayTurn) ∧
        ∀ s ∈ (globalTurns D i css).map displayTurn, ((i * D : ℕ) : ℚ) ≤ s.start := by
  intro css
  induction css with
  | nil =>
    intro i _ _
    simp [globalTurns]
  | cons cs rest ih =>
    intro i hs hb
    have hcs : List.Chain' (fun a b : RawTurn => a.start ≤ b.start) cs :=
      hs cs (by simp)
    have hbcs : ∀ t ∈ cs, 0 ≤ t.start ∧ t.start ≤ (D : ℚ) := hb cs (by simp)
    obtain ⟨ihchain, ihbound⟩ := ih (i + 1) (fun c hc => hs c (by simp [hc]))
      (fun c hc => hb c (by simp [hc]))
    have hA : List.Chain' (fun a b : DSeg => a.start ≤ b.start)
        ((shiftRaw ((i * D : ℕ) : ℚ) cs).map displayTurn) :=
      chain_map_displayTurn _ (shiftRaw_chain _ _ hcs)
    have hAb := shiftRaw_display_bounds D i cs hbcs
    constructor
    · simp only [globalTurns, List.map_append]
      rw [List.chain'_append]
      refine ⟨hA, ihchain, ?_⟩
      intro x hx y hy
      have hxA : x ∈ (shiftRaw ((i * D : ℕ) : ℚ) cs).map displayTurn :=
        List.mem_of_mem_getLast? hx
      have hyB : y ∈ (globalTurns D (i + 1) rest).map displayTurn :=
        List.mem_of_mem_head? hy
      have h1 := (hAb x hxA).2
      have h2 := ihbound y hyB
      calc x.start ≤ (((i + 1) * D : ℕ) : ℚ) := h1
        _ ≤ y.start := h2
    · intro s hsm
      simp only [globalTurns, List.map_append, List.mem_append] at hsm
      rcases hsm with h1 | h1
      · exact (hAb s h1).1
      · have := ihbound s h1
        have hle : ((i * D : ℕ) : ℚ) ≤ (((i + 1) * D : ℕ) : ℚ) := by
          push_cast
          have : (0 : ℚ) ≤ (D : ℚ) := by positivity
          nlinarith
        linarith

/-- Sortedness and a lower start bound for the concatenated per-chunk
merged pieces. -/
theorem chunkPieces_flatten_sorted (D : ℕ) :
    ∀ (css : List (List RawTurn)) (i : ℕ),
      (∀ cs ∈ css, List.Chain' (fun a b : RawTurn => a.start ≤ b.start) cs) →
      (∀ cs ∈ css, ∀ t ∈ cs, 0 ≤ t.start ∧ t.start ≤ (D : ℚ)) →
      List.Chain' (fun a b : DSeg => a.start ≤ b.start)
          (chunkPieces D i css).flatten ∧
        ∀ s ∈ (chunkPieces D i css).flatten, ((i * D : ℕ) : ℚ) ≤ s.start := by
  intro css
  induction css with
  | nil =>
    intro i _ _
    simp [chunkPieces]
  | cons cs rest ih =>
    intro i hs hb
    have hcs : List.Chain' (fun a b : RawTurn => a.start ≤ b.start) cs :=
      hs cs (by simp)
    have hbcs : ∀ t ∈ cs, 0 ≤ t.start ∧ t.start ≤ (D : ℚ) := hb cs (by simp)
    obtain ⟨ihchain, ihbound⟩ := ih (i + 1) (fun c hc => hs c (by simp [hc]))
      (fun c hc => hb c (by simp [hc]))
    have hpieceEq : offsetSegs ((i * D : ℕ) : ℚ) (procResults cs) =
        mergeRun ((shiftRaw ((i * D : ℕ) : ℚ) cs).map displayTurn) :=
      chunkPiece_eq (i * D) cs hcs
    have hCchain : List.Chain' (fun a b : DSeg => a.start ≤ b.start)
        ((shiftRaw ((i * D : ℕ) : ℚ) cs).map displayTurn) :=
      chain_map_displayTurn _ (shiftRaw_chain _ _ hcs)
    have hAchain : List.Chain' (fun a b : DSeg => a.start ≤ b.start)
        (offsetSegs ((i * D : ℕ) : ℚ) (procResults cs)) := by
      rw [hpieceEq]
      match hC : (shiftRaw ((i * D : ℕ) : ℚ) cs).map displayTurn with
      | [] => simp [mergeRun]
      | x :: xs =>
        simp only [mergeRun]
        exact mergeScan_sorted x xs (by rw [← hC]; exact hCchain)
    have hAb : ∀ s ∈ offsetSegs ((i * D : ℕ) : ℚ) (procResults cs),
        ((i * D : ℕ) : ℚ) ≤ s.start ∧ s.start ≤ (((i + 1) * D : ℕ) : ℚ) := by
      intro s hsm
      rw [hpieceEq] at hsm
      obtain ⟨t, htm, hts, _⟩ := mergeRun_mem_start _ s hsm
      have := shiftRaw_display_bounds D i cs hbcs t htm
      rw [hts]
      exact this
    constructor
    · simp only [chunkPieces, List.flatten_cons]
      rw [List.chain'_append]
      refine ⟨hAchain, ihchain, ?_⟩
      intro x hx y hy
      have hxA := List.mem_of_mem_getLast? hx
      have hyB := List.mem_of_mem_head? hy
      have h1 := (hAb x hxA).2
      have h2 := ihbound y hyB
      calc x.start ≤ (((i + 1) * D : ℕ) : ℚ) := h1
        _ ≤ y.start := h2
    · intro s hsm
      simp only [chunkPieces, List.flatten_cons, List.mem_append] at hsm
      rcases hsm with h1 | h1
      · exact (hAb s h1).1
      · have := ihbound s h1
        have hle : ((i * D : ℕ) : ℚ) ≤ (((i + 1) * D : ℕ) : ℚ) := by
          push_cast
          have : (0 : ℚ) ≤ (D : ℚ) := by positivity
          nlinarith
        linarith

theorem mergeRun_congr_append (c A B : List DSeg) (h : mergeRun A = mergeRun B) :
    mergeRun (c ++ A) = mergeRun (c ++ B) := by
  calc mergeRun (c ++ A) = mergeRun (c ++ mergeRun A) := (mergeRun_append_right c A).symm
    _ = mergeRun (c ++ mergeRun B) := by rw [h]
    _ = mergeRun (c ++ B) := mergeRun_append_right c B

theorem chunked_run_eq (D : ℕ) :
    ∀ (css : List (List RawTurn)) (i : ℕ),
      (∀ cs ∈ css, List.Chain' (fun a b : RawTurn => a.start ≤ b.start) cs) →
      mergeRun (chunkPieces D i css).flatten =
        mergeRun ((globalTurns D i css).map displayTurn) := by
  intro css
  induction css with
  | nil => intro i _; rfl
  | cons cs rest ih =>
    intro i hs
    simp only [chunkPieces, List.flatten_cons, globalTurns, List.map_append]
    rw [chunkPiece_eq (i * D) cs (hs cs (by simp))]
    rw [mergeRun_append_left]
    exact mergeRun_congr_append _ _ _ (ih (i + 1) (fun c hc => hs c (by simp [hc])))

/-- C7 amended.  For a long recording split into chunks where no chunk
fails, with per-chunk collaborator outputs that are sorted, lie inside
their chunk window, and whose chunk-local labels first appear in an order
that makes the first-seen-wins global mapping label-preserving, chunked
diarization produces exactly the same consolidated segment list as
unchunked diarization of the same turns — in particular the same total
speaking time for every speaker. -/
theorem chunkedDiarization_equiv (css : List (List RawTurn)) (D : ℕ)
    (hsort : ∀ cs ∈ css, List.Chain' (fun a b : RawTurn => a.start ≤ b.start) cs)
    (hbound : ∀ cs ∈ css, ∀ t ∈ cs, 0 ≤ t.start ∧ t.start ≤ (D : ℚ))
    (hlabel : (relabelAll [] (chunkPieces D 0 css).flatten).2 =
      (chunkPieces D 0 css).flatten) :
    chunkedDiarization css D = unchunkedDiarization css D ∧
      ∀ sp, speakingTime (chunkedDiarization css D) sp =
        speakingTime (unchunkedDiarization css D) sp := by
  have hmain : chunkedDiarization css D = unchunkedDiarization css D := by
    unfold chunkedDiarization unchunkedDiarization procResults
    rw [hlabel]
    unfold mergePass
    rw [sortByStart_of_chain _ (chunkPieces_flatten_sorted D css 0 hsort hbound).1,
      sortByStart_of_chain _ (globalTurns_map_sorted D css 0 hsort hbound).1]
    exact chunked_run_eq D css 0 hsort
  exact ⟨hmain, fun sp => by rw [hmain]⟩

theorem mergePass_singleton (s : DSeg) : mergePass [s] = [s] := by
  unfold mergePass
  rw [sortByStart_of_chain _ (by simp)]
  rfl

theorem round2_one : round2 1 = 1 := by simpa using round2_natCast 1

theorem round2_two : round2 2 = 2 := by simpa using round2_natCast 2

theorem round2_ten : round2 10 = 10 := by simpa using round2_natCast 10

theorem round2_twelve : round2 12 = 12 := by simpa using round2_natCast 12

/-- Two single-turn chunks of the same synthetic recording: chunk 0 holds a
turn by the collaborator's speaker index 1, chunk 1 a turn by speaker
index 0.  No chunk fails. -/
def cexChunks : List (List RawTurn) := [[RawTurn.mk 0 1 1], [RawTurn.mk 0 2 0]]

theorem cex_display0 : displayTurn (RawTurn.mk 0 1 1) = DSeg.mk 0 1 "Speaker 2" 1 := by
  unfold displayTurn
  have hsub : (1 : ℚ) - 0 = 1 := by norm_num
  simp only
  rw [hsub, round2_zero, round2_one, (by decide : speakerLabel 1 = "Speaker 2")]

theorem cex_display1 : displayTurn (RawTurn.mk 0 2 0) = DSeg.mk 0 2 "Speaker 1" 2 := by
  unfold displayTurn
  have hsub : (2 : ℚ) - 0 = 2 := by norm_num
  simp only
  rw [hsub, round2_zero, round2_two, (by decide : speakerLabel 0 = "Speaker 1")]

theorem cex_pieces_eval : chunkPieces 10 0 cexChunks =
    [[DSeg.mk 0 1 "Speaker 2" 1], [DSeg.mk 10 12 "Speaker 1" 2]] := by
  unfold cexChunks
  simp only [chunkPieces, procResults, List.map_cons, List.map_nil, cex_display0,
    cex_display1, mergePass_singleton]
  have ho0 : offsetSegs ((0 * 10 : ℕ) : ℚ) [DSeg.mk 0 1 "Speaker 2" 1] =
      [DSeg.mk 0 1 "Speaker 2" 1] := by
    simp only [offsetSegs, List.map_cons, List.map_nil]
    norm_num
  have ho1 : offsetSegs (((0 + 1) * 10 : ℕ) : ℚ) [DSeg.mk 0 2 "Speaker 1" 2] =
      [DSeg.mk 10 12 "Speaker 1" 2] := by
    simp only [offsetSegs, List.map_cons, List.map_nil]
    norm_num
  rw [ho0, ho1]

theorem cex_relabel :
    (relabelAll [] [DSeg.mk 0 1 "Speaker 2" 1, DSeg.mk 10 12 "Speaker 1" 2]).2 =
      [DSeg.mk 0 1 "Speaker 1" 1, DSeg.mk 10 12 "Speaker 2" 2] := by
  have e1 : relabelStep [] "Speaker 2" = [("Speaker 2", "Speaker 1")] := by decide
  have e2 : relabelStep [("Speaker 2", "Speaker 1")] "Speaker 1" =
      [("Speaker 2", "Speaker 1"), ("Speaker 1", "Speaker 2")] := by decide
  have e3 : (List.lookup "Speaker 2" [("Speaker 2", "Speaker 1")]).getD "Speaker 2" =
      "Speaker 1" := by decide
  have e4 : (List.lookup "Speaker 1"
      [("Speaker 2", "Speaker 1"), ("Speaker 1", "Speaker 2")]).getD "Speaker 1" =
      "Speaker 2" := by decide
  simp only [relabelAll, e1, e2, e3, e4]

theorem cex_chunked : chunkedDiarization cexChunks 10 =
    [DSeg.mk 0 1 "Speaker 1" 1, DSeg.mk 10 12 "Speaker 2" 2] := by
  unfold chunkedDiarization
  rw [cex_pieces_eval]
  have hflat : ([[DSeg.mk 0 1 "Speaker 2" 1], [DSeg.mk 10 12 "Speaker 1" 2]] :
      List (List DSeg)).flatten =
      [DSeg.mk 0 1 "Speaker 2" 1, DSeg.mk 10 12 "Speaker 1" 2] := by
    simp
  rw [hflat, cex_relabel]
  unfold mergePass
  rw [sortByStart_of_chain _ (by
    simp only [List.chain'_cons, List.chain'_singleton, and_true]
    norm_num)]
  have hcm : canMergeB (DSeg.mk 0 1 "Speaker 1" 1) (DSeg.mk 10 12 "Speaker 2" 2) = false := by
    decide
  simp [mergeRun, mergeScan, hcm]

theorem cex_unchunked : unchunkedDiarization cexChunks 10 =
    [DSeg.mk 0 1 "Speaker 2" 1, DSeg.mk 10 12 "Speaker 1" 2] := by
  unfold unchunkedDiarization
  have hg : globalTurns 10 0 cexChunks = [RawTurn.mk 0 1 1, RawTurn.mk 10 12 0] := by
    unfold cexChunks
    simp only [globalTurns, shiftRaw, List.map_cons, List.map_nil, List.cons_append,
      List.nil_append]
    norm_num
  rw [hg]
  unfold procResults
  have hd1 : displayTurn (RawTurn.mk 10 12 0) = DSeg.mk 10 12 "Speaker 1" 2 := by
    unfold displayTurn
    have hsub : (12 : ℚ) - 10 = 2 := by norm_num
    simp only
    rw [hsub, round2_ten, round2_twelve, round2_two,
      (by decide : speakerLabel 0 = "Speaker 1")]
  simp only [List.map_cons, List.map_nil, cex_display0, hd1]
  unfold mergePass
  rw [sortByStart_of_chain _ (by
    simp only [List.chain'_cons, List.chain'_singleton, and_true]
    norm_num)]
  have hcm : canMergeB (DSeg.mk 0 1 "Speaker 2" 1) (DSeg.mk 10 12 "Speaker 1" 2) = false := by
    decide
  simp [mergeRun, mergeScan, hcm]

/-- C7 counterexample.  On a synthetic two-chunk recording in which no
chunk fails, the first-seen-wins global speaker mapping renames the
chunk-local labels in first-appearance order, which here swaps the two
speakers relative to unchunked processing: the total speaking time
attributed to "Speaker 1" is 1 s chunked but 2 s unchunked. -/
theorem chunkedDiarization_counterexample :
    speakingTime (chunkedDiarization cexChunks 10) "Speaker 1" = 1 ∧
      speakingTime (unchunkedDiarization cexChunks 10) "Speaker 1" = 2 ∧
      speakingTime (chunkedDiarization cexChunks 10) "Speaker 1" ≠
        speakingTime (unchunkedDiarization cexChunks 10) "Speaker 1" := by
  rw [cex_chunked, cex_unchunked]
  have h1 : speakingTime [DSeg.mk 0 1 "Speaker 1" 1, DSeg.mk 10 12 "Speaker 2" 2]
      "Speaker 1" = 1 := by
    simp [speakingTime]
  have h2 : speakingTime [DSeg.mk 0 1 "Speaker 2" 1, DSeg.mk 10 12 "Speaker 1" 2]
      "Speaker 1" = 2 := by
    simp [speakingTime]
  rw [h1, h2]
  norm_num

/-- Two single-turn chunks by the same speaker (collaborator index 0 in
both chunks): the first-seen-wins mapping is label-preserving here. -/
def witChunks : List (List RawTurn) := [[RawTurn.mk 0 1 0], [RawTurn.mk 0 2 0]]

theorem wit_pieces_eval : chunkPieces 10 0 witChunks =
    [[DSeg.mk 0 1 "Speaker 1" 1], [DSeg.mk 10 12 "Speaker 1" 2]] := by
  unfold witChunks
  have hd0 : displayTurn (RawTurn.mk 0 1 0) = DSeg.mk 0 1 "Speaker 1" 1 := by
    unfold displayTurn
    have hsub : (1 : ℚ) - 0 = 1 := by norm_num
    simp only
    rw [hsub, round2_zero, round2_one, (by decide : speakerLabel 0 = "Speaker 1")]
  simp only [chunkPieces, procResults, List.map_cons, List.map_nil, hd0,
    cex_display1, mergePass_singleton]
  have ho0 : offsetSegs ((0 * 10 : ℕ) : ℚ) [DSeg.mk 0 1 "Speaker 1" 1] =
      [DSeg.mk 0 1 "Speaker 1" 1] := by
    simp only [offsetSegs, List.map_cons, List.map_nil]
    norm_num
  have ho1 : offsetSegs (((0 + 1) * 10 : ℕ) : ℚ) [DSeg.mk 0 2 "Speaker 1" 2] =
      [DSeg.mk 10 12 "Speaker 1" 2] := by
    simp only [offsetSegs, List.map_cons, List.map_nil]
    norm_num
  rw [ho0, ho1]

theorem wit_label :
    (relabelAll [] (chunkPieces 10 0 witChunks).flatten).2 =
      (chunkPieces 10 0 witChunks).flatten := by
  rw [wit_pieces_eval]
  have hflat : ([[DSeg.mk 0 1 "Speaker 1" 1], [DSeg.mk 10 12 "Speaker 1" 2]] :
      List (List DSeg)).flatten =
      [DSeg.mk 0 1 "Speaker 1" 1, DSeg.mk 10 12 "Speaker 1" 2] := by
    simp
  rw [hflat]
  have e1 : relabelStep [] "Speaker 1" = [("Speaker 1", "Speaker 1")] := by decide
  have e2 : relabelStep [("Speaker 1", "Speaker 1")] "Speaker 1" =
      [("Speaker 1", "Speaker 1")] := by decide
  have e3 : (List.lookup "Speaker 1" [("Speaker 1", "Speaker 1")]).getD "Speaker 1" =
      "Speaker 1" := by decide
  simp only [relabelAll, e1, e2, e3]

/-- Witness for the amended C7 at a concrete two-chunk recording. -/
theorem chunkedDiarization_equiv_witness :
    ((∀ cs ∈ witChunks, List.Chain' (fun a b : RawTurn => a.start ≤ b.start) cs) ∧
      (∀ cs ∈ witChunks, ∀ t ∈ cs, 0 ≤ t.start ∧ t.start ≤ ((10 : ℕ) : ℚ)) ∧
      (relabelAll [] (chunkPieces 10 0 witChunks).flatten).2 =
        (chunkPieces 10 0 witChunks).flatten) ∧
      speakingTime (chunkedDiarization witChunks 10) "Speaker 1" =
        speakingTime (unchunkedDiarization witChunks 10) "Speaker 1" := by
  have hs : ∀ cs ∈ witChunks, List.Chain' (fun a b : RawTurn => a.start ≤ b.start) cs := by
    intro cs hcs
    rcases (by simpa [witChunks] using hcs : cs = [RawTurn.mk 0 1 0] ∨
      cs = [RawTurn.mk 0 2 0]) with rfl | rfl
    · simp
    · simp
  have hb : ∀ cs ∈ witChunks, ∀ t ∈ cs, 0 ≤ t.start ∧ t.start ≤ ((10 : ℕ) : ℚ) := by
    intro cs hcs t ht
    rcases (by simpa [witChunks] using hcs : cs = [RawTurn.mk 0 1 0] ∨
      cs = [RawTurn.mk 0 2 0]) with rfl | rfl
    · have : t = RawTurn.mk 0 1 0 := by simpa using ht
      subst this
      norm_num
    · have : t = RawTurn.mk 0 2 0 := by simpa using ht
      subst this
      norm_num
  exact ⟨⟨hs, hb, wit_label⟩,
    (chunkedDiarization_equiv witChunks 10 hs hb wit_label).2 "Speaker 1"⟩

/-! ### The orchestrator `process_audio_file` (app.py lines 337-588)

The orchestrator is embedded as a pure function of an `Env` describing the
behaviour of every collaborator for one job.  Filesystem writes always
succeed in this model; `json.dump` fails exactly when the record holds a
non-JSON-serializable metadata value (the one kind of value the code can
place in the record that `make_serializable` cannot convert), which is how
the outermost exception handler of lines 576-588 is reached. -/

/-- Python `transcript.startswith("Error:")`: character-prefix test. -/
def startsWithError (s : String) : Bool := "Error:".data.isPrefixOf s.data

/-- Python `len(s.split())`: the number of whitespace-separated words
(splitting on single spaces here; the transcripts the claims quantify over
are space-separated). -/
def wordCount (s : String) : ℕ := ((s.splitOn " ").filter (fun w => w ≠ "")).length

/-- The value stored under `results["segments"]`: either a Python list
(each item reduced to the optional numeric `end` the orchestrator reads —
`none` for an item that is not a dict or lacks an `end` key), or a value of
some other type together with its truthiness. -/
inductive SegVal where
  | list (items : List (Option ℚ))
  | nonlist (truthy : Bool)
deriving DecidableEq, Repr

/-- The transcriber's return value (app.py lines 408-422): a dict (with
missing `text` / `segments` keys already defaulted to `""` / `[]` as
`.get` does), a bare string, or a value of another type. -/
inductive TransOut where
  | tdict (text : String) (segments : SegVal)
  | tstr (s : String)
  | tother (typeName : String)
deriving DecidableEq, Repr

/-- The diarizer's return value as inspected by app.py lines 463-470: a
dict with an optional `segments` entry, or a non-dict value — in
particular the plain list that `SpeakerDiarization.diarize` actually
returns, including its single-segment `SPEAKER_UNKNOWN` sentinel. -/
inductive DiarOut where
  | ddict (segments : Option SegVal)
  | dlist (items : List (ℚ × ℚ × String))
deriving DecidableEq, Repr

/-- The sentinel `[{start: 0.0, end: 100000.0, speaker: "SPEAKER_UNKNOWN"}]`
returned by `SpeakerDiarization.diarize` when the pipeline is unavailable
or fails (diarization.py lines 170-176 and 237-243). -/
def sentinelDiar : DiarOut := .dlist [(0, 100000, "SPEAKER_UNKNOWN")]

/-- Outcome of one stage call run under `time_limit`. -/
inductive StageOutcome (α : Type) where
  | timeout
  | exn (msg : String)
  | ok (v : α)
deriving DecidableEq, Repr

/-- The metadata object stored in `results["metadata"]`; the orchestrator
only depends on whether `json.dump` can serialize it. -/
structure Meta where
  serializable : Bool
deriving DecidableEq, Repr

inductive MetaField where
  | good (m : Meta)
  | failed (msg : String)
deriving DecidableEq, Repr

inductive TopicsOut where
  | tlist (topics : List String)
  | tnonlist
deriving DecidableEq, Repr

inductive ExtOut where
  | esummary (pts : List String)
  | enokey
deriving DecidableEq, Repr

inductive AbsOut where
  | asummary (s : String)
  | anokey
deriving DecidableEq, Repr

structure SummOuts where
  ext : Except String ExtOut
  abs : Except String AbsOut
deriving Repr

/-- The diarization field of the record: a structured `{error: msg}` dict
or the diarizer's dict result. -/
inductive DiarField where
  | err (msg : String)
  | result (d : DiarOut)
deriving DecidableEq, Repr

/-- The behaviour of every collaborator for one job. -/
structure Env where
  hfToken : String
  audioProcCtor : Except String Unit
  extractMeta : Except String Meta
  transcriberCtor : Except String Bool
  transcribe : Except String TransOut
  diarize : StageOutcome DiarOut
  topics : StageOutcome TopicsOut
  summ : StageOutcome SummOuts

/-- The job's result dict; `none` marks an absent key. -/
structure Rec where
  jobId : String
  status : String
  error : Option String
  warning : Option String
  metadata : Option MetaField
  transcript : Option String
  segments : Option SegVal
  diarization : Option DiarField
  topics : Option (List String)
  abstractive : Option String
  extractive : Option (List String)
deriving DecidableEq, Repr

def initRec (jobId : String) : Rec :=
  { jobId := jobId, status := "completed", error := none, warning := none,
    metadata := none, transcript := none, segments := none, diarization := none,
    topics := none, abstractive := none, extractive := none }

/-- The metadata that ends up in the record (app.py lines 350-378): if the
`AudioProcessor` constructor failed, the later reference to the unbound
local raises a `NameError`, which the metadata handler turns into an error
dict. -/
def metadataOf (env : Env) : MetaField :=
  match env.audioProcCtor with
  | .ok _ =>
    match env.extractMeta with
    | .ok m => .good m
    | .error e => .failed ("Failed to extract metadata: " ++ e)
  | .error _ =>
    .failed "Failed to extract metadata: name 'audio_processor' is not defined"

/-- Steps of app.py lines 350-378: audio-processor construction warning and
metadata extraction. -/
def applyMeta (env : Env) (r : Rec) : Rec :=
  let r1 := match env.audioProcCtor with
    | .ok _ => r
    | .error e => { r with warning := some ("Error initializing audio processor: " ++ e) }
  { r1 with metadata := some (metadataOf env) }

/-- The transcript string after the transcription stage
(app.py lines 404-430). -/
def transcriptOf (env : Env) : String :=
  match env.transcribe with
  | .ok (.tdict t _) => t
  | .ok (.tstr s) => s
  | .ok (.tother ty) => "Error: Unexpected transcription result type: " ++ ty
  | .error e => "Error: " ++ e

/-- The segments value after the transcription stage. -/
def segmentsOf (env : Env) : SegVal :=
  match env.transcribe with
  | .ok (.tdict _ segs) => segs
  | _ => .list []

def applyTranscription (env : Env) (r : Rec) : Rec :=
  { r with transcript := some (transcriptOf env), segments := some (segmentsOf env) }

/-- `total_audio_duration`: the maximum `end` over the segment dicts that
carry one (app.py lines 448-451). -/
def maxEnd (items : List (Option ℚ)) : ℚ :=
  items.foldl (fun acc o => match o with | some e => max acc e | none => acc) 0

/-- The diarization field produced when the stage actually runs
(app.py lines 457-476). -/
def diarStageField (env : Env) : DiarField :=
  match env.diarize with
  | .timeout => .err "Speaker diarization timed out"
  | .exn e => .err e
  | .ok (.ddict segs) => .result (.ddict segs)
  | .ok (.dlist _) => .err "Invalid diarization result format"

/-- The diarization step (app.py lines 444-483). -/
def applyDiar (env : Env) (r : Rec) : Rec :=
  match segmentsOf env with
  | .list items =>
    if env.hfToken ≠ "" ∧ items ≠ [] then
      if maxEnd items < 10 ∨ items.length < 5 then
        { r with diarization := some (.err "Audio too short for speaker detection") }
      else
        match env.diarize with
        | .timeout => { r with diarization := some (.err "Speaker diarization timed out") }
        | .exn e => { r with diarization := some (.err e) }
        | .ok (.ddict segs) =>
          let r2 := { r with diarization := some (.result (.ddict segs)) }
          match segs with
          | some (.list newItems) =>
            if newItems ≠ [] then { r2 with segments := some (.list newItems) } else r2
          | _ => r2
        | .ok (.dlist _) =>
          { r with diarization := some (.err "Invalid diarization result format") }
    else if env.hfToken = "" then
      { r with diarization := some (.err "Hugging Face access token not provided") }
    else
      { r with diarization := some (.err "No valid segments available for diarization") }
  | .nonlist _ =>
    if env.hfToken = "" then
      { r with diarization := some (.err "Hugging Face access token not provided") }
    else
      { r with diarization := some (.err "No valid segments available for diarization") }

/-- The topic-detection step (app.py lines 485-513). -/
def applyTopics (env : Env) (r : Rec) : Rec :=
  if transcriptOf env ≠ "" ∧ startsWithError (transcriptOf env) = false then
    if wordCount (transcriptOf env) < 30 then { r with topics := some [] }
    else
      match env.topics with
      | .timeout => { r with topics := some [] }
      | .exn _ => { r with topics := some [] }
      | .ok (.tlist ts) => { r with topics := some ts }
      | .ok .tnonlist => { r with topics := some [] }
  else { r with topics := some [] }

/-- The summarization step (app.py lines 515-567). -/
def applySumm (env : Env) (r : Rec) : Rec :=
  if transcriptOf env ≠ "" ∧ startsWithError (transcriptOf env) = false then
    if wordCount (transcriptOf env) < 30 then
      { r with
        abstractive := some "The content is too short for a meaningful summary.",
        extractive := some ["The content is too short for extracting key points."] }
    else
      match env.summ with
      | .timeout =>
        { r with abstractive := some "Summarization timed out",
                 extractive := some ["Summarization timed out"] }
      | .exn e =>
        { r with abstractive := some ("Error: " ++ e),
                 extractive := some ["Error: " ++ e] }
      | .ok outs =>
        let extVal := match outs.ext with
          | .ok (.esummary pts) => pts
          | .ok .enokey => ["Error generating extractive summary"]
          | .error e => ["Error: " ++ e]
        let absVal := match outs.abs with
          | .ok (.asummary s) => s
          | .ok .anokey => "Error generating abstractive summary"
          | .error e => "Error: " ++ e
        { r with extractive := some extVal, abstractive := some absVal }
  else
    { r with abstractive := some "Summarization skipped - No valid transcript",
             extractive := some ["Summarization skipped - No valid transcript"] }

/-- The message of the `TypeError` that `json.dump(default=make_serializable)`
raises on a non-serializable value (app.py lines 180-184). -/
def serErrMsg : String := "Object of type module is not JSON serializable"

def recSerializable (r : Rec) : Bool :=
  match r.metadata with
  | some (.good m) => m.serializable
  | _ => true

/-- `json.dump(results, f, default=make_serializable)`: succeeds unless the
record holds a non-serializable value. -/
def persist (r : Rec) : Except String Rec :=
  if recSerializable r then .ok r else .error serErrMsg

/-- The body of `process_audio_file` inside the outermost `try`
(app.py lines 339-574): every `return` path ends in one persist. -/
def processBody (env : Env) (jobId : String) : Except String Rec :=
  let r1 := applyMeta env (initRec jobId)
  match env.transcriberCtor with
  | .error e =>
    persist { r1 with
      warning := some ("Error initializing transcriber: " ++ e),
      transcript := some "Error: Transcription failed due to initialization error.",
      segments := some (.list []) }
  | .ok mock =>
    let w2 : Option String :=
      some "Running in mock mode - Whisper not available. Results may be limited."
    let r2 := if mock then { r1 with warning := w2 } else r1
    let r3 := applyTranscription env r2
    if transcriptOf env = "" ∨ startsWithError (transcriptOf env) = true then
      persist r3
    else
      persist (applySumm env (applyTopics env (applyDiar env r3)))

/-- The minimal `{job_id, status: error, error}` record written by the
outermost handler (app.py lines 576-588); built from plain strings, it
always serializes. -/
def minimalRec (jobId msg : String) : Rec :=
  { initRec jobId with status := "error", error := some msg }

/-- `process_audio_file`: the sequence of result artifacts persisted for
the job (exactly the final content of `{job_id}_results.json`). -/
def processAudioFile (env : Env) (jobId : String) : List Rec :=
  match processBody env jobId with
  | .ok r => [r]
  | .error e => [minimalRec jobId e]

/-- Whether the final `json.dump` of this job's record succeeds. -/
def envSerializable (env : Env) : Bool :=
  match metadataOf env with
  | .good m => m.serializable
  | .failed _ => true

theorem applyMeta_metadata (env : Env) (r : Rec) :
    (applyMeta env r).metadata = some (metadataOf env) := by
  unfold applyMeta
  match env.audioProcCtor with
  | .ok _ => rfl
  | .error e => rfl

theorem applyTranscription_metadata (env : Env) (r : Rec) :
    (applyTranscription env r).metadata = r.metadata := rfl

theorem applyDiar_metadata (env : Env) (r : Rec) :
    (applyDiar env r).metadata = r.metadata := by
  unfold applyDiar
  cases hseg : segmentsOf env with
  | list items =>
    simp only [hseg]
    by_cases h1 : env.hfToken ≠ "" ∧ items ≠ []
    · rw [if_pos h1]
      by_cases h2 : maxEnd items < 10 ∨ items.length < 5
      · rw [if_pos h2]
      · rw [if_neg h2]
        cases hd : env.diarize with
        | timeout => rfl
        | exn e => rfl
        | ok d =>
          cases d with
          | dlist l => rfl
          | ddict segs =>
            match segs with
            | none => rfl
            | some (.nonlist b) => rfl
            | some (.list newItems) =>
              by_cases h3 : newItems ≠ []
              · simp only [if_pos h3]
              · simp only [if_neg h3]
    · rw [if_neg h1]
      by_cases h2 : env.hfToken = ""
      · rw [if_pos h2]
      · rw [if_neg h2]
  | nonlist b =>
    simp only [hseg]
    by_cases h2 : env.hfToken = ""
    · rw [if_pos h2]
    · rw [if_neg h2]

theorem applyTopics_metadata (env : Env) (r : Rec) :
    (applyTopics env r).metadata = r.metadata := by
  unfold applyTopics
  by_cases h1 : transcriptOf env ≠ "" ∧ startsWithError (transcriptOf env) = false
  · rw [if_pos h1]
    by_cases h2 : wordCount (transcriptOf env) < 30
    · rw [if_pos h2]
    · rw [if_neg h2]
      match env.topics with
      | .timeout => rfl
      | .exn e => rfl
      | .ok (.tlist ts) => rfl
      | .ok .tnonlist => rfl
  · rw [if_neg h1]

theorem applySumm_metadata (env : Env) (r : Rec) :
    (applySumm env r).metadata = r.metadata := by
  unfold applySumm
  by_cases h1 : transcriptOf env ≠ "" ∧ startsWithError (transcriptOf env) = false
  · rw [if_pos h1]
    by_cases h2 : wordCount (transcriptOf env) < 30
    · rw [if_pos h2]
    · rw [if_neg h2]
      match env.summ with
      | .timeout => rfl
      | .exn e => rfl
      | .ok outs => rfl
  · rw [if_neg h1]

theorem applyMeta_initRec_fields (env : Env) (jobId : String) :
    (applyMeta env (initRec jobId)).diarization = none ∧
      (applyMeta env (initRec jobId)).topics = none ∧
      (applyMeta env (initRec jobId)).abstractive = none ∧
      (applyMeta env (initRec jobId)).extractive = none := by
  unfold applyMeta initRec
  match env.audioProcCtor with
  | .ok _ => exact ⟨rfl, rfl, rfl, rfl⟩
  | .error e => exact ⟨rfl, rfl, rfl, rfl⟩

def mockWarn (r : Rec) : Rec :=
  { r with warning := some "Running in mock mode - Whisper not available. Results may be limited." }

theorem processBody_gate_eq (env : Env) (jobId : String) (mock : Bool)
    (hctor : env.transcriberCtor = .ok mock)
    (hgate : transcriptOf env = "" ∨ startsWithError (transcriptOf env) = true) :
    ∃ r2 : Rec, processBody env jobId = persist (applyTranscription env r2) ∧
      r2.metadata = some (metadataOf env) ∧ r2.diarization = none ∧
      r2.topics = none ∧ r2.abstractive = none ∧ r2.extractive = none := by
  refine ⟨if mock then mockWarn (applyMeta env (initRec jobId))
    else applyMeta env (initRec jobId), ?_, ?_, ?_, ?_, ?_, ?_⟩
  · unfold processBody
    rw [hctor]
    simp only [if_pos hgate]
    rfl
  · cases mock
    · simp [applyMeta_metadata]
    · simp [mockWarn, applyMeta_metadata]
  · cases mock
    · simp [(applyMeta_initRec_fields env jobId).1]
    · simp [mockWarn, (applyMeta_initRec_fields env jobId).1]
  · cases mock
    · simp [(applyMeta_initRec_fields env jobId).2.1]
    · simp [mockWarn, (applyMeta_initRec_fields env jobId).2.1]
  · cases mock
    · simp [(applyMeta_initRec_fields env jobId).2.2.1]
    · simp [mockWarn, (applyMeta_initRec_fields env jobId).2.2.1]
  · cases mock
    · simp [(applyMeta_initRec_fields env jobId).2.2.2]
    · simp [mockWarn, (applyMeta_initRec_fields env jobId).2.2.2]

/-- C1 amended.  If after the transcription stage the transcript is empty
or begins with the error marker, and the record serializes, the
orchestrator persists exactly the partial record and terminates: the
persisted record carries the gate-triggering transcript itself (the empty
string or an error-marker string), and none of diarization, topic
detection, or summarization ran (their keys are absent). -/
theorem transcriptGate_spec (env : Env) (jobId : String) (mock : Bool)
    (hctor : env.transcriberCtor = .ok mock)
    (hser : envSerializable env = true)
    (hgate : transcriptOf env = "" ∨ startsWithError (transcriptOf env) = true) :
    ∃ r, processAudioFile env jobId = [r] ∧
      r.transcript = some (transcriptOf env) ∧
      (transcriptOf env = "" ∨ startsWithError (transcriptOf env) = true) ∧
      r.diarization = none ∧ r.topics = none ∧
      r.abstractive = none ∧ r.extractive = none := by
  obtain ⟨r2, hbody, hmeta, hd, ht, ha, he⟩ := processBody_gate_eq env jobId mock hctor hgate
  have hserR : recSerializable (applyTranscription env r2) = true := by
    unfold recSerializable
    rw [applyTranscription_metadata, hmeta]
    unfold envSerializable at hser
    cases hm : metadataOf env with
    | good m =>
      simp only [hm] at hser ⊢
      exact hser
    | failed msg => simp only [hm]
  refine ⟨applyTranscription env r2, ?_, rfl, hgate, ?_, ?_, ?_, ?_⟩
  · unfold processAudioFile
    rw [hbody]
    unfold persist
    rw [if_pos hserR]
  · show r2.diarization = none
    exact hd
  · show r2.topics = none
    exact ht
  · show r2.abstractive = none
    exact ha
  · show r2.extractive = none
    exact he

/-- An environment in which transcription succeeds but yields an empty
transcript; every collaborator is otherwise healthy. -/
def envC1 : Env :=
  { hfToken := "token", audioProcCtor := .ok (), extractMeta := .ok ⟨true⟩,
    transcriberCtor := .ok false, transcribe := .ok (.tdict "" (.list [])),
    diarize := .ok (.ddict none), topics := .ok (.tlist []),
    summ := .ok { ext := .ok (.esummary []), abs := .ok (.asummary "") } }

/-- C1 counterexample.  With an empty (non-failing) transcript the gate
fires — the persisted record has no diarization/topics/summaries — but the
persisted transcript is the empty string, which does not begin with
"Error:"; so the claim's "the persisted record's transcript is the
error-marker string" is false as stated. -/
theorem transcriptGate_counterexample :
    processAudioFile envC1 "job" =
      [{ initRec "job" with
         metadata := some (.good ⟨true⟩),
         transcript := some "",
         segments := some (.list []) }] ∧
      startsWithError "" = false := by
  constructor
  · rfl
  · decide

/-- Witness for the amended C1: a failing transcription yields an
error-marker transcript, the gate fires and the partial record is
persisted with no later-stage keys. -/
theorem transcriptGate_spec_witness :
    (envSerializable envC1 = true ∧
      (transcriptOf envC1 = "" ∨ startsWithError (transcriptOf envC1) = true)) ∧
      ∃ r, processAudioFile envC1 "job" = [r] ∧
        r.transcript = some (transcriptOf envC1) ∧
        (transcriptOf envC1 = "" ∨ startsWithError (transcriptOf envC1) = true) ∧
        r.diarization = none ∧ r.topics = none ∧
        r.abstractive = none ∧ r.extractive = none := by
  have h1 : envSerializable envC1 = true := by decide
  have h2 : transcriptOf envC1 = "" ∨ startsWithError (transcriptOf envC1) = true := by
    left
    rfl
  exact ⟨⟨h1, h2⟩, transcriptGate_spec envC1 "job" false rfl h1 h2⟩

/-! ### Claim C2: one terminal artifact per job, no propagation -/

/-- C2.  `process_audio_file` is a total function of the collaborators'
behaviour — no exception from a collaborator propagates out — and on every
execution path (normal completion, transcript-gate early exit,
transcriber-construction failure, or an uncaught exception such as a
non-serializable record reaching `json.dump`) exactly one terminal result
artifact is persisted; on the uncaught-exception path it is the minimal
`{job_id, status: "error", error: message}` record. -/
theorem orchestratorPersistence_spec (env : Env) (jobId : String) :
    (∃ r, processAudioFile env jobId = [r]) ∧
      (∀ e, processBody env jobId = .error e →
        processAudioFile env jobId = [minimalRec jobId e]) := by
  constructor
  · unfold processAudioFile
    match processBody env jobId with
    | .ok r => exact ⟨r, rfl⟩
    | .error e => exact ⟨minimalRec jobId e, rfl⟩
  · intro e he
    unfold processAudioFile
    rw [he]

/-- The environment of `envC1` but with metadata that `json.dump` cannot
serialize: the gate-path persist raises and the outermost handler writes
the minimal error record. -/
def envC2 : Env :=
  { hfToken := "token", audioProcCtor := .ok (), extractMeta := .ok ⟨false⟩,
    transcriberCtor := .ok false, transcribe := .ok (.tdict "" (.list [])),
    diarize := .ok (.ddict none), topics := .ok (.tlist []),
    summ := .ok { ext := .ok (.esummary []), abs := .ok (.asummary "") } }

/-- Witness for C2 on the uncaught-exception path. -/
theorem orchestratorPersistence_witness :
    processBody envC2 "job" = .error serErrMsg ∧
      processAudioFile envC2 "job" = [minimalRec "job" serErrMsg] := by
  have hb : processBody envC2 "job" = .error serErrMsg := rfl
  exact ⟨hb, (orchestratorPersistence_spec envC2 "job").2 serErrMsg hb⟩

theorem applyDiar_fields (env : Env) (r : Rec) :
    (applyDiar env r).status = r.status ∧
      (applyDiar env r).transcript = r.transcript ∧
      (applyDiar env r).topics = r.topics ∧
      (applyDiar env r).abstractive = r.abstractive ∧
      (applyDiar env r).extractive = r.extractive := by
  unfold applyDiar
  cases hseg : segmentsOf env with
  | list items =>
    simp only [hseg]
    by_cases h1 : env.hfToken ≠ "" ∧ items ≠ []
    · rw [if_pos h1]
      by_cases h2 : maxEnd items < 10 ∨ items.length < 5
      · rw [if_pos h2]
        exact ⟨rfl, rfl, rfl, rfl, rfl⟩
      · rw [if_neg h2]
        cases hd : env.diarize with
        | timeout => exact ⟨rfl, rfl, rfl, rfl, rfl⟩
        | exn e => exact ⟨rfl, rfl, rfl, rfl, rfl⟩
        | ok d =>
          cases d with
          | dlist l => exact ⟨rfl, rfl, rfl, rfl, rfl⟩
          | ddict segs =>
            match segs with
            | none => exact ⟨rfl, rfl, rfl, rfl, rfl⟩
            | some (.nonlist b) => exact ⟨rfl, rfl, rfl, rfl, rfl⟩
            | some (.list newItems) =>
              by_cases h3 : newItems ≠ []
              · simp only [if_pos h3]
                simp
              · simp only [if_neg h3]
                simp
    · rw [if_neg h1]
      by_cases h2 : env.hfToken = ""
      · rw [if_pos h2]
        exact ⟨rfl, rfl, rfl, rfl, rfl⟩
      · rw [if_neg h2]
        exact ⟨rfl, rfl, rfl, rfl, rfl⟩
  | nonlist b =>
    simp only [hseg]
    by_cases h2 : env.hfToken = ""
    · rw [if_pos h2]
      exact ⟨rfl, rfl, rfl, rfl, rfl⟩
    · rw [if_neg h2]
      exact ⟨rfl, rfl, rfl, rfl, rfl⟩

theorem applyTopics_fields (env : Env) (r : Rec) :
    (applyTopics env r).status = r.status ∧
      (applyTopics env r).transcript = r.transcript ∧
      (applyTopics env r).segments = r.segments ∧
      (applyTopics env r).diarization = r.diarization ∧
      (applyTopics env r).abstractive = r.abstractive ∧
      (applyTopics env r).extractive = r.extractive ∧
      (applyTopics env r).topics.isSome = true := by
  unfold applyTopics
  by_cases h1 : transcriptOf env ≠ "" ∧ startsWithError (transcriptOf env) = false
  · rw [if_pos h1]
    by_cases h2 : wordCount (transcriptOf env) < 30
    · rw [if_pos h2]
      exact ⟨rfl, rfl, rfl, rfl, rfl, rfl, rfl⟩
    · rw [if_neg h2]
      cases env.topics with
      | timeout => exact ⟨rfl, rfl, rfl, rfl, rfl, rfl, rfl⟩
      | exn e => exact ⟨rfl, rfl, rfl, rfl, rfl, rfl, rfl⟩
      | ok t =>
        cases t with
        | tlist ts => exact ⟨rfl, rfl, rfl, rfl, rfl, rfl, rfl⟩
        | tnonlist => exact ⟨rfl, rfl, rfl, rfl, rfl, rfl, rfl⟩
  · rw [if_neg h1]
    exact ⟨rfl, rfl, rfl, rfl, rfl, rfl, rfl⟩

theorem applySumm_fields (env : Env) (r : Rec) :
    (applySumm env r).status = r.status ∧
      (applySumm env r).transcript = r.transcript ∧
      (applySumm env r).segments = r.segments ∧
      (applySumm env r).diarization = r.diarization ∧
      (applySumm env r).topics = r.topics ∧
      (applySumm env r).abstractive.isSome = true ∧
      (applySumm env r).extractive.isSome = true := by
  unfold applySumm
  by_cases h1 : transcriptOf env ≠ "" ∧ startsWithError (transcriptOf env) = false
  · rw [if_pos h1]
    by_cases h2 : wordCount (transcriptOf env) < 30
    · rw [if_pos h2]
      exact ⟨rfl, rfl, rfl, rfl, rfl, rfl, rfl⟩
    · rw [if_neg h2]
      cases env.summ with
      | timeout => exact ⟨rfl, rfl, rfl, rfl, rfl, rfl, rfl⟩
      | exn e => exact ⟨rfl, rfl, rfl, rfl, rfl, rfl, rfl⟩
      | ok outs => exact ⟨rfl, rfl, rfl, rfl, rfl, rfl, rfl⟩
  · rw [if_neg h1]
    exact ⟨rfl, rfl, rfl, rfl, rfl, rfl, rfl⟩

/-- The gates of the diarization stage as the claim states them: a
configured credential, at least 5 transcript segments, and at least 10
seconds of audio. -/
def diarGates (env : Env) : Prop :=
  env.hfToken ≠ "" ∧ ∃ items, segmentsOf env = .list items ∧
    5 ≤ items.length ∧ 10 ≤ maxEnd items

theorem applyDiar_run (env : Env) (r : Rec) (h : diarGates env) :
    (applyDiar env r).diarization = some (diarStageField env) := by
  obtain ⟨htok, items, hseg, hlen, hmax⟩ := h
  unfold applyDiar
  simp only [hseg]
  have hne : items ≠ [] := by
    intro hc
    rw [hc] at hlen
    simp at hlen
  rw [if_pos ⟨htok, hne⟩]
  have hcond : ¬(maxEnd items < 10 ∨ items.length < 5) := by
    push_neg
    exact ⟨hmax, hlen⟩
  rw [if_neg hcond]
  unfold diarStageField
  cases env.diarize with
  | timeout => rfl
  | exn e => rfl
  | ok d =>
    cases d with
    | dlist l => rfl
    | ddict segs =>
      match segs with
      | none => rfl
      | some (.nonlist b) => rfl
      | some (.list newItems) =>
        by_cases h3 : newItems ≠ []
        · simp only [if_pos h3]
        · simp only [if_neg h3]

theorem applyDiar_skip_msg (env : Env) (r : Rec) (h : ¬ diarGates env) :
    ∃ m, (applyDiar env r).diarization = some (.err m) ∧
      (m = "Hugging Face access token not provided" ∨
        m = "No valid segments available for diarization" ∨
        m = "Audio too short for speaker detection") := by
  unfold applyDiar
  cases hseg : segmentsOf env with
  | list items =>
    simp only [hseg]
    by_cases h1 : env.hfToken ≠ "" ∧ items ≠ []
    · rw [if_pos h1]
      by_cases h2 : maxEnd items < 10 ∨ items.length < 5
      · rw [if_pos h2]
        exact ⟨_, rfl, Or.inr (Or.inr rfl)⟩
      · exfalso
        apply h
        push_neg at h2
        exact ⟨h1.1, items, hseg, h2.2, h2.1⟩
    · rw [if_neg h1]
      by_cases h2 : env.hfToken = ""
      · rw [if_pos h2]
        exact ⟨_, rfl, Or.inl rfl⟩
      · rw [if_neg h2]
        exact ⟨_, rfl, Or.inr (Or.inl rfl)⟩
  | nonlist b =>
    simp only [hseg]
    by_cases h2 : env.hfToken = ""
    · rw [if_pos h2]
      exact ⟨_, rfl, Or.inl rfl⟩
    · rw [if_neg h2]
      exact ⟨_, rfl, Or.inr (Or.inl rfl)⟩

theorem applyDiar_indep (env : Env) (r : Rec) (h : ¬ diarGates env)
    (d : StageOutcome DiarOut) :
    applyDiar { env with diarize := d } r = applyDiar env r := by
  unfold applyDiar
  have hseg2 : segmentsOf { env with diarize := d } = segmentsOf env := rfl
  rw [hseg2]
  cases hseg : segmentsOf env with
  | list items =>
    simp only [hseg]
    by_cases h1 : env.hfToken ≠ "" ∧ items ≠ []
    · rw [if_pos h1, if_pos h1]
      by_cases h2 : maxEnd items < 10 ∨ items.length < 5
      · rw [if_pos h2, if_pos h2]
      · exfalso
        apply h
        push_neg at h2
        exact ⟨h1.1, items, hseg, h2.2, h2.1⟩
    · rw [if_neg h1, if_neg h1]
  | nonlist b =>
    simp only [hseg]

/-- The record going into the transcription stage (metadata and possible
mock-mode warning applied). -/
def preRec (env : Env) (jobId : String) (mock : Bool) : Rec :=
  if mock then mockWarn (applyMeta env (initRec jobId)) else applyMeta env (initRec jobId)

theorem preRec_metadata (env : Env) (jobId : String) (mock : Bool) :
    (preRec env jobId mock).metadata = some (metadataOf env) := by
  unfold preRec
  cases mock
  · simp [applyMeta_metadata]
  · simp [mockWarn, applyMeta_metadata]

theorem preRec_status (env : Env) (jobId : String) (mock : Bool) :
    (preRec env jobId mock).status = "completed" := by
  unfold preRec
  cases mock
  · show (applyMeta env (initRec jobId)).status = "completed"
    unfold applyMeta initRec
    match env.audioProcCtor with
    | .ok _ => rfl
    | .error e => rfl
  · show (mockWarn (applyMeta env (initRec jobId))).status = "completed"
    unfold mockWarn applyMeta initRec
    match env.audioProcCtor with
    | .ok _ => rfl
    | .error e => rfl

theorem processBody_full_eq (env : Env) (jobId : String) (mock : Bool)
    (hctor : env.transcriberCtor = .ok mock)
    (hvalid : ¬(transcriptOf env = "" ∨ startsWithError (transcriptOf env) = true)) :
    processBody env jobId =
      persist (applySumm env (applyTopics env
        (applyDiar env (applyTranscription env (preRec env jobId mock))))) := by
  unfold processBody preRec
  rw [hctor]
  simp only [if_neg hvalid]
  rfl

theorem processFull_serializable (env : Env) (r2 : Rec)
    (hmeta : r2.metadata = some (metadataOf env))
    (hser : envSerializable env = true) :
    recSerializable (applySumm env (applyTopics env
      (applyDiar env (applyTranscription env r2)))) = true := by
  unfold recSerializable
  rw [applySumm_metadata, applyTopics_metadata, applyDiar_metadata,
    applyTranscription_metadata, hmeta]
  unfold envSerializable at hser
  cases hm : metadataOf env with
  | good m =>
    simp only [hm] at hser ⊢
    exact hser
  | failed msg => simp only [hm]

/-- C8.  For every job with a valid transcript, the diarization stage is
consulted exactly when a credential is configured and there are at least 5
transcript segments spanning at least 10 seconds; whenever any gate fails
the record's diarization field is a structured `{error: reason}` object and
the stage is skipped — the persisted artifact does not depend on the
diarizer's behaviour at all. -/
theorem diarizationGate_spec (env : Env) (jobId : String) (mock : Bool)
    (hctor : env.transcriberCtor = .ok mock)
    (hser : envSerializable env = true)
    (hvalid : ¬(transcriptOf env = "" ∨ startsWithError (transcriptOf env) = true)) :
    ∃ r, processAudioFile env jobId = [r] ∧
      (diarGates env → r.diarization = some (diarStageField env)) ∧
      (¬ diarGates env →
        (∃ m, r.diarization = some (.err m) ∧
          (m = "Hugging Face access token not provided" ∨
            m = "No valid segments available for diarization" ∨
            m = "Audio too short for speaker detection")) ∧
        ∀ d, processAudioFile { env with diarize := d } jobId =
          processAudioFile env jobId) := by
  have hbody := processBody_full_eq env jobId mock hctor hvalid
  have hserR := processFull_serializable env (preRec env jobId mock)
    (preRec_metadata env jobId mock) hser
  refine ⟨applySumm env (applyTopics env
    (applyDiar env (applyTranscription env (preRec env jobId mock)))), ?_, ?_, ?_⟩
  · unfold processAudioFile
    rw [hbody]
    unfold persist
    rw [if_pos hserR]
  · intro hg
    rw [(applySumm_fields env _).2.2.2.1, (applyTopics_fields env _).2.2.2.1]
    exact applyDiar_run env _ hg
  · intro hng
    constructor
    · obtain ⟨m, hm, hcases⟩ := applyDiar_skip_msg env
        (applyTranscription env (preRec env jobId mock)) hng
      refine ⟨m, ?_, hcases⟩
      rw [(applySumm_fields env _).2.2.2.1, (applyTopics_fields env _).2.2.2.1]
      exact hm
    · intro d
      unfold processAudioFile
      have hbody2 : processBody { env with diarize := d } jobId = processBody env jobId := by
        have hctor2 : ({ env with diarize := d } : Env).transcriberCtor = .ok mock := hctor
        have hvalid2 : ¬(transcriptOf { env with diarize := d } = "" ∨
            startsWithError (transcriptOf { env with diarize := d }) = true) := hvalid
        have hfull2 := processBody_full_eq { env with diarize := d } jobId mock hctor2 hvalid2
        have e2 : applyTranscription { env with diarize := d } = applyTranscription env := rfl
        have e3 : applyTopics { env with diarize := d } = applyTopics env := rfl
        have e4 : applySumm { env with diarize := d } = applySumm env := rfl
        have e6 : preRec { env with diarize := d } jobId mock = preRec env jobId mock := rfl
        rw [hfull2, hbody, e2, e3, e4, e6]
        rw [applyDiar_indep env (applyTranscription env (preRec env jobId mock)) hng d]
      rw [hbody2]

theorem applyDiar_segments_char (env : Env) (r : Rec) (hg : diarGates env)
    (d : DiarOut) (hok : env.diarize = .ok d) :
    ((applyDiar env r).segments ≠ r.segments →
      ∃ items, items ≠ [] ∧ d = .ddict (some (.list items)) ∧
        (applyDiar env r).segments = some (.list items)) ∧
    (d = sentinelDiar →
      applyDiar env r = { r with
        diarization := some (.err "Invalid diarization result format") }) := by
  obtain ⟨htok, items, hseg, hlen, hmax⟩ := hg
  unfold applyDiar
  simp only [hseg]
  have hne : items ≠ [] := by
    intro hc
    rw [hc] at hlen
    simp at hlen
  rw [if_pos ⟨htok, hne⟩]
  have hcond : ¬(maxEnd items < 10 ∨ items.length < 5) := by
    push_neg
    exact ⟨hmax, hlen⟩
  rw [if_neg hcond, hok]
  cases d with
  | dlist l =>
    refine ⟨fun hc => absurd rfl hc, fun _ => rfl⟩
  | ddict segs =>
    match segs with
    | none =>
      refine ⟨fun hc => absurd rfl hc, fun hc => by simp [sentinelDiar] at hc⟩
    | some (.nonlist b) =>
      refine ⟨fun hc => absurd rfl hc, fun hc => by simp [sentinelDiar] at hc⟩
    | some (.list newItems) =>
      by_cases h3 : newItems ≠ []
      · simp only [if_pos h3]
        refine ⟨fun _ => ⟨newItems, h3, rfl, rfl⟩, fun hc => by simp [sentinelDiar] at hc⟩
      · simp only [if_neg h3]
        refine ⟨fun hc => absurd rfl hc, fun hc => by simp [sentinelDiar] at hc⟩

/-- C5.  When the diarization gates pass and the stage returns (no timeout
or exception), the orchestrator replaces the record's segments only with a
well-formed non-empty list taken from a dict result's `segments` key —
otherwise the transcription segments are kept; and the diarizer's sentinel
"unknown speaker" list is not a hard failure: it is recorded as a
structured diarization error while the job completes normally (status
stays "completed", transcription segments are kept, and topic detection
and both summaries still run). -/
theorem diarizationReplace_spec (env : Env) (jobId : String) (mock : Bool)
    (hctor : env.transcriberCtor = .ok mock)
    (hser : envSerializable env = true)
    (hvalid : ¬(transcriptOf env = "" ∨ startsWithError (transcriptOf env) = true))
    (hg : diarGates env) (d : DiarOut) (hok : env.diarize = .ok d) :
    ∃ r, processAudioFile env jobId = [r] ∧
      (r.segments ≠ some (segmentsOf env) →
        ∃ items, items ≠ [] ∧ d = .ddict (some (.list items)) ∧
          r.segments = some (.list items)) ∧
      (d = sentinelDiar →
        r.status = "completed" ∧
        r.diarization = some (.err "Invalid diarization result format") ∧
        r.segments = some (segmentsOf env) ∧
        r.topics.isSome = true ∧ r.abstractive.isSome = true ∧
        r.extractive.isSome = true) := by
  have hbody := processBody_full_eq env jobId mock hctor hvalid
  have hserR := processFull_serializable env (preRec env jobId mock)
    (preRec_metadata env jobId mock) hser
  obtain ⟨hchar1, hchar2⟩ := applyDiar_segments_char env
    (applyTranscription env (preRec env jobId mock)) hg d hok
  have hXsegs : (applyTranscription env (preRec env jobId mock)).segments =
      some (segmentsOf env) := rfl
  have hRsegs : (applySumm env (applyTopics env (applyDiar env
      (applyTranscription env (preRec env jobId mock))))).segments =
      (applyDiar env (applyTranscription env (preRec env jobId mock))).segments := by
    rw [(applySumm_fields env _).2.2.1, (applyTopics_fields env _).2.2.1]
  refine ⟨applySumm env (applyTopics env
    (applyDiar env (applyTranscription env (preRec env jobId mock)))), ?_, ?_, ?_⟩
  · unfold processAudioFile
    rw [hbody]
    unfold persist
    rw [if_pos hserR]
  · intro hchanged
    rw [hRsegs] at hchanged ⊢
    rw [← hXsegs] at hchanged
    exact hchar1 hchanged
  · intro hsent
    have hdiarEq := hchar2 hsent
    refine ⟨?_, ?_, ?_, ?_, ?_, ?_⟩
    · rw [(applySumm_fields env _).1, (applyTopics_fields env _).1, hdiarEq]
      show (applyTranscription env (preRec env jobId mock)).status = "completed"
      show (preRec env jobId mock).status = "completed"
      exact preRec_status env jobId mock
    · rw [(applySumm_fields env _).2.2.2.1, (applyTopics_fields env _).2.2.2.1, hdiarEq]
    · rw [hRsegs, hdiarEq]
      exact hXsegs
    · rw [(applySumm_fields env _).2.2.2.2.1]
      exact (applyTopics_fields env _).2.2.2.2.2.2
    · exact (applySumm_fields env _).2.2.2.2.2.1
    · exact (applySumm_fields env _).2.2.2.2.2.2

/-- A concrete job for the C8 witness: valid transcript, no HF token. -/
def envC8 : Env :=
  { hfToken := "", audioProcCtor := .ok (), extractMeta := .ok { serializable := true },
    transcriberCtor := .ok false,
    transcribe := .ok (.tdict "hello world" (.list [some 12, none, none, none, none])),
    diarize := .ok (.ddict none), topics := .ok (.tlist ["t"]),
    summ := .ok { ext := .ok (.esummary ["p"]), abs := .ok (.asummary "s") } }

theorem diarizationGate_spec_witness :
    ∃ r, processAudioFile envC8 "jobC8" = [r] ∧
      (∃ m, r.diarization = some (.err m) ∧
        (m = "Hugging Face access token not provided" ∨
          m = "No valid segments available for diarization" ∨
          m = "Audio too short for speaker detection")) ∧
      processAudioFile { envC8 with diarize := .timeout } "jobC8" =
        processAudioFile envC8 "jobC8" := by
  obtain ⟨r, hr, _, hskip⟩ := diarizationGate_spec envC8 "jobC8" false rfl rfl (by decide)
  have hng : ¬ diarGates envC8 := fun h => h.1 rfl
  obtain ⟨hm, hind⟩ := hskip hng
  exact ⟨r, hr, hm, hind .timeout⟩

/-- A concrete job for the C5 witness: all gates pass and the diarizer
returns its `SPEAKER_UNKNOWN` sentinel list. -/
def envC5 : Env :=
  { hfToken := "tok", audioProcCtor := .ok (), extractMeta := .ok { serializable := true },
    transcriberCtor := .ok false,
    transcribe := .ok (.tdict "hello world" (.list [some 12, none, none, none, none])),
    diarize := .ok sentinelDiar, topics := .ok (.tlist ["t"]),
    summ := .ok { ext := .ok (.esummary ["p"]), abs := .ok (.asummary "s") } }

theorem diarizationReplace_spec_witness :
    ∃ r, processAudioFile envC5 "jobC5" = [r] ∧
      r.status = "completed" ∧
      r.diarization = some (.err "Invalid diarization result format") ∧
      r.segments = some (segmentsOf envC5) := by
  have hg : diarGates envC5 := by
    refine ⟨by decide, [some 12, none, none, none, none], rfl, by decide, ?_⟩
    have hm : maxEnd [some 12, none, none, none, none] = max 0 12 := by
      unfold maxEnd
      simp only [List.foldl_cons, List.foldl_nil]
    rw [hm]
    exact le_trans (by norm_num) (le_max_right 0 12)
  obtain ⟨r, hr, _, hsent⟩ := diarizationReplace_spec envC5 "jobC5" false rfl rfl
    (by decide) hg sentinelDiar rfl
  obtain ⟨h1, h2, h3, _⟩ := hsent rfl
  exact ⟨r, hr, h1, h2, h3⟩

/-- A summary dictionary `{"summary": v}` as returned by both summarizers:
the value is either a string or a list of points. -/
inductive SummDict where
  | strD (s : String)
  | listD (pts : List String)
deriving Repr

/-- Outcome of the sumy parse-and-rank block (summarization.py lines
105-109): a `LookupError` from the NLTK tokenizer, some other exception,
or the ranked sentences (already via `str(sentence)`). -/
inductive SumyOutcome where
  | lookupErr
  | exn (msg : String)
  | ok (sents : List String)
deriving Repr

/-- Collaborator behaviour of `ExtractiveSummarizer.summarize`: sumy
availability, the regex cleaner `clean_transcript`, the regex sentence
splitter of the fallback, the sumy pipeline, and whether the fallback
body itself raises. -/
structure ExtEnv where
  sumyAvailable : Bool
  clean : String → String
  split : String → List String
  sumy : String → SumyOutcome
  fallbackFails : Bool

/-- The points collected by `_fallback_summarize` (summarization.py lines
146-160): first `max(3, min(10, len*0.2))` sentences, stripped, empties
dropped. -/
def extPoints (env : ExtEnv) (text : String) : List String :=
  (((env.split (env.clean text)).take
      (max 3 (min 10 ((env.split (env.clean text)).length * 2 / 10)))).map
    String.trim).filter (fun s => s ≠ "")

/-- `ExtractiveSummarizer._fallback_summarize` (lines 136-170); its own
`except Exception` turns any failure of the body into the hard default. -/
def extFallback (env : ExtEnv) (text : String) : List String :=
  if env.fallbackFails then ["Could not generate summary for this content."]
  else if extPoints env text = [] then ["No key points could be extracted."]
  else extPoints env text

/-- `ExtractiveSummarizer.summarize` (lines 85-134): the value of the
returned dict's `summary` key on each return path; `LookupError` falls
back on the cleaned text, any other exception on the original text. -/
def extSummarize (env : ExtEnv) (text : String) : SummDict :=
  if env.sumyAvailable = false then .listD (extFallback env text)
  else
    match env.sumy (env.clean text) with
    | .lookupErr => .listD (extFallback env (env.clean text))
    | .exn _ => .listD (extFallback env text)
    | .ok sents =>
      if (String.intercalate " " sents).trim = "" then .listD (extFallback env text)
      else if (sents.map String.trim).filter (fun s => s ≠ "") = [] then
        .listD ["No key points could be extracted."]
      else .listD ((sents.map String.trim).filter (fun s => s ≠ ""))

/-- Collaborator behaviour of `AbstractiveSummarizer.summarize`: model
availability, cleaner and splitter as above, the tokenizer-generate-decode
block of the main path and of `_summarize_chunk` (an `.error` is any
exception raised there), and whether the fallback or long-text bodies
themselves raise. -/
structure AbsEnv where
  modelAvailable : Bool
  clean : String → String
  split : String → List String
  generate : String → Except String String
  genChunk : String → Except String String
  fallbackFails : Bool
  longFails : Bool

/-- `AbstractiveSummarizer._fallback_summarize` (lines 311-352). -/
def absFallback (env : AbsEnv) (text : String) : String :=
  if env.fallbackFails then "Unable to generate summary for this content."
  else if wordCount (env.clean text) < 20 then
    "The content is too short for a meaningful summary."
  else if (env.split (env.clean text)).length ≤ 4 then
    String.intercalate " " (env.split (env.clean text))
  else
    String.intercalate " " ((env.split (env.clean text)).take 3) ++ " [...] " ++
      String.intercalate " " (((env.split (env.clean text)).drop
        (max 3 ((env.split (env.clean text)).length / 2 - 1))).take 2) ++ " [...] " ++
      String.intercalate " " ((env.split (env.clean text)).drop
        ((env.split (env.clean text)).length - 2))

/-- `AbstractiveSummarizer._summarize_chunk` (lines 428-486): the value of
the returned dict's `summary` key; its `except` clause absorbs generation
failures with a first-and-last-sentences digest. -/
def summarizeChunk (env : AbsEnv) (chunk : String) : String :=
  if wordCount chunk < 30 then chunk
  else
    match env.genChunk chunk with
    | .ok s =>
      if s.trim = "" ∨ s.trim.length < 10 then chunk.take 500 ++ " [...]" else s
    | .error _ =>
      if (env.split chunk).length ≤ 4 then chunk
      else
        String.intercalate " " ((env.split chunk).take 2) ++ " [...] " ++
          String.intercalate " " ((env.split chunk).drop ((env.split chunk).length - 2))

/-- Blocks of `k` consecutive sentences, as `range(0, len, chunk_size)`
slicing does; the fuel is the list length (every step with `1 ≤ k` drops
at least one element). -/
def chunksGo (k : ℕ) : ℕ → List String → List (List String)
  | _, [] => []
  | 0, _ => []
  | fuel + 1, l => l.take k :: chunksGo k fuel (l.drop k)

def chunksOf (k : ℕ) (l : List String) : List (List String) := chunksGo k l.length l

/-- `AbstractiveSummarizer._summarize_long_text` (lines 354-426): the
value of the returned dict's `summary` key. The thread pool is modelled
sequentially: each chunk summary is a pure function of its chunk and the
results are reassembled in index order (`chunk_summaries.sort()`). -/
def summarizeLong (env : AbsEnv) (text : String) : String :=
  if env.longFails then absFallback env text
  else if (env.split (env.clean text)).length ≤ 10 then
    summarizeChunk env (env.clean text)
  else
    let sentences := env.split (env.clean text)
    let size := max 10 (sentences.length / min 5 (max 3 (sentences.length / 200)))
    let chunks := ((chunksOf size sentences).map
      (String.intercalate " ")).filter (fun c => c.trim ≠ "")
    let inter := String.intercalate " " (chunks.map (summarizeChunk env))
    if 500 < wordCount inter then summarizeChunk env inter else inter

/-- `AbstractiveSummarizer.summarize` (lines 236-309): the value of the
returned dict's `summary` key on each return path. -/
def absSummarize (env : AbsEnv) (text : String) (maxInputLength : ℕ) : SummDict :=
  if env.modelAvailable = false then .strD (absFallback env text)
  else if wordCount (env.clean text) < 20 then
    .strD "The content is too short for a meaningful summary."
  else if maxInputLength < wordCount (env.clean text) then
    .strD (summarizeLong env (env.clean text))
  else if 600 < wordCount (env.clean text) then
    .strD (summarizeLong env (env.clean text))
  else
    match env.generate (env.clean text) with
    | .ok s =>
      if s.trim = "" ∨ s.trim.length < 10 then .strD (absFallback env text)
      else .strD s
    | .error _ => .strD (absFallback env text)

theorem extFallback_ne_nil (env : ExtEnv) (text : String) :
    extFallback env text ≠ [] := by
  unfold extFallback
  split_ifs with h1 h2
  · simp
  · simp
  · exact h2

/-- C10.  For every input string and every behaviour of the collaborators
(sumy, the T5 model, the regex cleaner and splitter — including every
failure they can raise, and even a failing fallback body),
`ExtractiveSummarizer.summarize` returns a `{"summary": points}` dict
whose points list is non-empty, and `AbstractiveSummarizer.summarize`
returns a `{"summary": text}` dict; no exception escapes either method —
every failure is absorbed by a fallback that itself yields a well-formed
summary dict. -/
theorem summarize_wellformed (eenv : ExtEnv) (aenv : AbsEnv) (text : String)
    (maxInputLength : ℕ) :
    (∃ pts, extSummarize eenv text = .listD pts ∧ pts ≠ []) ∧
    ∃ s, absSummarize aenv text maxInputLength = .strD s := by
  constructor
  · unfold extSummarize
    by_cases h1 : eenv.sumyAvailable = false
    · rw [if_pos h1]
      exact ⟨_, rfl, extFallback_ne_nil eenv text⟩
    · rw [if_neg h1]
      cases hs : eenv.sumy (eenv.clean text) with
      | lookupErr =>
        simp only [hs]
        exact ⟨_, rfl, extFallback_ne_nil eenv (eenv.clean text)⟩
      | exn m =>
        simp only [hs]
        exact ⟨_, rfl, extFallback_ne_nil eenv text⟩
      | ok sents =>
        simp only [hs]
        by_cases h2 : (String.intercalate " " sents).trim = ""
        · rw [if_pos h2]
          exact ⟨_, rfl, extFallback_ne_nil eenv text⟩
        · rw [if_neg h2]
          by_cases h3 : (sents.map String.trim).filter (fun s => s ≠ "") = []
          · rw [if_pos h3]
            exact ⟨_, rfl, by simp⟩
          · rw [if_neg h3]
            exact ⟨_, rfl, h3⟩
  · unfold absSummarize
    by_cases h1 : aenv.modelAvailable = false
    · rw [if_pos h1]
      exact ⟨_, rfl⟩
    · rw [if_neg h1]
      by_cases h2 : wordCount (aenv.clean text) < 20
      · rw [if_pos h2]
        exact ⟨_, rfl⟩
      · rw [if_neg h2]
        by_cases h3 : maxInputLength < wordCount (aenv.clean text)
        · rw [if_pos h3]
          exact ⟨_, rfl⟩
        · rw [if_neg h3]
          by_cases h4 : 600 < wordCount (aenv.clean text)
          · rw [if_pos h4]
            exact ⟨_, rfl⟩
          · rw [if_neg h4]
            cases hg : aenv.generate (aenv.clean text) with
            | ok s =>
              simp only [hg]
              by_cases h5 : s.trim = "" ∨ s.trim.length < 10
              · rw [if_pos h5]
                exact ⟨_, rfl⟩
              · rw [if_neg h5]
                exact ⟨_, rfl⟩
            | error e =>
              simp only [hg]
              exact ⟨_, rfl⟩
